import Mathlib

/-!
Verification development for the EquationAce rewrite-suggestion backend
(`src/server/main.py`, `src/server/schemas.py`).

The Python data model and the pure operations of the suggestion pipeline are
shallowly embedded as Lean definitions: the minimal Content-MathML AST
(`_parse_content_mathml_to_ast` output shape), canonicalization
(`_canonical`), the djb2 node-id hash (`_djb2_hex`), id assignment
(`_with_ids`), depth-first lookup (`_find_node_by_id`), the AST-to-algebra
conversion (`_ast_to_sympy`), rule compilation (`_build_rule`), rule-file
loading (`_parse_rule_line`, `_load_rewrite_rules_from_dir`) and the
suggestion generators (`_generate_options_from_loaded_rules` and the
complete-the-square block of `_generate_rewrite_options`).

The external algebra engine (SymPy) is out of scope for the program's design:
its expression values are modelled by the deep type `SymExpr`, and the engine
operations consumed by the code (pattern matching, the default constructor
evaluation applied by `xreplace` to every rebuilt node, `Poly` coefficient
extraction, `simplify`, markup rendering) are abstracted as the fields of an
`Engine` record that the embedded generators take as a parameter.
-/

namespace EquationAce

/-- The minimal Content MathML AST produced by `_parse_content_mathml_to_ast`
(`main.py`): dictionaries with a `kind` field of `ident`, `number`, `power`,
`add`, `call` or `diff`, with term order preserved verbatim. -/
inductive AST : Type where
  | ident (name : String)
  | number (value : String)
  | power (base exponent : AST)
  | add (terms : List AST)
  | call (fn : String) (arg : AST)
  | diff (var arg : AST)

mutual

/-- `_canonical` (main.py lines 1019-1034): the order-sensitive canonical
string of an AST node, computed bottom-up. -/
def AST.canonical : AST → String
  | .ident n => "ident:" ++ n
  | .number v => "number:" ++ v
  | .power b e => "power(" ++ AST.canonical b ++ "," ++ AST.canonical e ++ ")"
  | .add ts => "add(" ++ String.intercalate "," (AST.canonicalList ts) ++ ")"
  | .call f a => "call:" ++ f ++ "(" ++ AST.canonical a ++ ")"
  | .diff v a => "diff(" ++ AST.canonical v ++ "," ++ AST.canonical a ++ ")"

/-- The `','.join(_canonical(t) for t in ast['terms'])` iteration inside
`_canonical`. -/
def AST.canonicalList : List AST → List String
  | [] => []
  | t :: ts => AST.canonical t :: AST.canonicalList ts

end

/-- One step of the loop body of `_djb2_hex` (main.py lines 1037-1042):
`h = ((h << 5) + h) + ord(ch); h = h & 0xFFFFFFFF`. -/
def djb2Step (h : Nat) (c : Char) : Nat :=
  (((h <<< 5) + h) + c.toNat) &&& 0xFFFFFFFF

/-- The accumulator loop of `_djb2_hex` over the characters of the string,
starting from 5381. -/
def djb2Acc (cs : List Char) : Nat :=
  cs.foldl djb2Step 5381

/-- Hex digit character used by Python `format(h, 'x')`: `0`-`9` then
lowercase `a`-`f`. -/
def hexDigitChar (n : Nat) : Char :=
  if n < 10 then Char.ofNat (48 + n) else Char.ofNat (87 + n)

/-- Digit-accumulation loop of Python `format(h, 'x')`: peel hex digits from
the low end, most significant first in the result. The first argument is
fuel; `n + 1` units always suffice since the value shrinks at every step. -/
def pyHexCore : Nat → Nat → List Char → List Char
  | 0, _, acc => acc
  | fuel + 1, n, acc =>
    let d := hexDigitChar (n % 16)
    if n < 16 then d :: acc else pyHexCore fuel (n / 16) (d :: acc)

/-- Python `format(h, 'x')`: minimal lowercase hexadecimal rendering, with
`"0"` for zero. -/
def pyHexFormat (n : Nat) : String :=
  String.mk (pyHexCore (n + 1) n [])

/-- The sixteen characters Python `format(_, 'x')` can emit. -/
def hexAlphabet : List Char :=
  "0123456789abcdef".data

/-- `_djb2_hex` (main.py lines 1037-1042): 32-bit djb2 hash of a string,
rendered as lowercase hexadecimal. -/
def djb2Hex (s : String) : String :=
  pyHexFormat (djb2Acc s.data)

/-- `p` is a prefix of `s` (character lists). -/
def listIsPrefix : List Char → List Char → Bool
  | [], _ => true
  | _ :: _, [] => false
  | a :: as, b :: bs => a == b && listIsPrefix as bs

/-- Python `s.startswith(p)`. -/
def pyStartsWith (s p : String) : Bool :=
  listIsPrefix p.data s.data

/-- Python `s.strip()`: drop leading and trailing whitespace. -/
def pyStrip (s : String) : String :=
  String.mk (((s.data.dropWhile Char.isWhitespace).reverse.dropWhile
    Char.isWhitespace).reverse)

/-- Python `s.lower()`. -/
def pyLower (s : String) : String :=
  String.mk (s.data.map Char.toLower)

/-- The scanning loop of Python `s.split(sep)` for a non-empty separator:
leftmost non-overlapping occurrences cut the string; the first argument is
fuel, for which the input length plus one always suffices. -/
def pySplitCore (sep : List Char) : Nat → List Char → List Char → List (List Char)
  | 0, s, acc => [acc.reverse ++ s]
  | fuel + 1, s, acc =>
    match s with
    | [] => [acc.reverse]
    | c :: rest =>
      if listIsPrefix sep (c :: rest) then
        acc.reverse :: pySplitCore sep fuel (List.drop sep.length (c :: rest)) []
      else
        pySplitCore sep fuel rest (c :: acc)

/-- Python `s.split(sep)` for a non-empty separator (Python raises on an
empty separator; that case is never exercised). -/
def pySplit (sep s : String) : List String :=
  if sep.data.isEmpty then [s]
  else (pySplitCore sep.data (s.data.length + 1) s.data []).map String.mk

/-- The AST shape after `_with_ids` (main.py lines 1045-1075): the same node
kinds and children, with an `id` string attached to every node. -/
inductive IdAST : Type where
  | ident (name : String) (id : String)
  | number (value : String) (id : String)
  | power (base exponent : IdAST) (id : String)
  | add (terms : List IdAST) (id : String)
  | call (fn : String) (arg : IdAST) (id : String)
  | diff (var arg : IdAST) (id : String)

/-- The `id` field read by `ast.get("id")` in `_find_node_by_id`. -/
def IdAST.idOf : IdAST → String
  | .ident _ i => i
  | .number _ i => i
  | .power _ _ i => i
  | .add _ i => i
  | .call _ _ i => i
  | .diff _ _ i => i

mutual

/-- `_canonical` applied to an id-annotated node: the function reads only the
`kind` field and the children, never the `id` field, so it is the same
canonical grammar as `AST.canonical`. -/
def IdAST.canonicalI : IdAST → String
  | .ident n _ => "ident:" ++ n
  | .number v _ => "number:" ++ v
  | .power b e _ => "power(" ++ IdAST.canonicalI b ++ "," ++ IdAST.canonicalI e ++ ")"
  | .add ts _ => "add(" ++ String.intercalate "," (IdAST.canonicalIList ts) ++ ")"
  | .call f a _ => "call:" ++ f ++ "(" ++ IdAST.canonicalI a ++ ")"
  | .diff v a _ => "diff(" ++ IdAST.canonicalI v ++ "," ++ IdAST.canonicalI a ++ ")"

/-- The list iteration inside `IdAST.canonicalI` for `add` nodes. -/
def IdAST.canonicalIList : List IdAST → List String
  | [] => []
  | t :: ts => IdAST.canonicalI t :: IdAST.canonicalIList ts

end

mutual

/-- `_with_ids` (main.py lines 1045-1075): annotate every node with
`_djb2_hex` of its canonical string, children first; for a composite node
the canonical string is computed from the already-annotated children
(which leaves it unchanged, since `_canonical` never reads `id`). -/
def AST.withIds : AST → IdAST
  | .ident n => .ident n (djb2Hex (AST.canonical (.ident n)))
  | .number v => .number v (djb2Hex (AST.canonical (.number v)))
  | .power b e =>
    let b' := AST.withIds b
    let e' := AST.withIds e
    .power b' e' (djb2Hex ("power(" ++ IdAST.canonicalI b' ++ "," ++ IdAST.canonicalI e' ++ ")"))
  | .add ts =>
    let ts' := AST.withIdsList ts
    .add ts' (djb2Hex ("add(" ++ String.intercalate "," (IdAST.canonicalIList ts') ++ ")"))
  | .call f a =>
    let a' := AST.withIds a
    .call f a' (djb2Hex ("call:" ++ f ++ "(" ++ IdAST.canonicalI a' ++ ")"))
  | .diff v a =>
    let v' := AST.withIds v
    let a' := AST.withIds a
    .diff v' a' (djb2Hex ("diff(" ++ IdAST.canonicalI v' ++ "," ++ IdAST.canonicalI a' ++ ")"))

/-- The `[_with_ids(t) for t in ast["terms"]]` comprehension. -/
def AST.withIdsList : List AST → List IdAST
  | [] => []
  | t :: ts => AST.withIds t :: AST.withIdsList ts

end

mutual

/-- Dropping the `id` field from every node of an annotated tree. -/
def IdAST.eraseIds : IdAST → AST
  | .ident n _ => .ident n
  | .number v _ => .number v
  | .power b e _ => .power (IdAST.eraseIds b) (IdAST.eraseIds e)
  | .add ts _ => .add (IdAST.eraseIdsList ts)
  | .call f a _ => .call f (IdAST.eraseIds a)
  | .diff v a _ => .diff (IdAST.eraseIds v) (IdAST.eraseIds a)

/-- List version of `IdAST.eraseIds`. -/
def IdAST.eraseIdsList : List IdAST → List AST
  | [] => []
  | t :: ts => IdAST.eraseIds t :: IdAST.eraseIdsList ts

end

mutual

/-- Depth-first preorder traversal of an annotated tree: the node itself,
then each child's subtree in order. -/
def IdAST.preorder : IdAST → List IdAST
  | .ident n i => [.ident n i]
  | .number v i => [.number v i]
  | .power b e i => .power b e i :: (IdAST.preorder b ++ IdAST.preorder e)
  | .add ts i => .add ts i :: IdAST.preorderList ts
  | .call f a i => .call f a i :: IdAST.preorder a
  | .diff v a i => .diff v a i :: (IdAST.preorder v ++ IdAST.preorder a)

/-- Concatenated preorders of a list of trees. -/
def IdAST.preorderList : List IdAST → List IdAST
  | [] => []
  | t :: ts => IdAST.preorder t ++ IdAST.preorderList ts

end

mutual

/-- `_find_node_by_id` (main.py lines 1078-1093): return the node itself when
its id matches, otherwise search the children depth-first, first match wins;
`none` when the id is absent. -/
def IdAST.findNodeById : IdAST → String → Option IdAST
  | t@(.ident _ _), nid => if t.idOf = nid then some t else none
  | t@(.number _ _), nid => if t.idOf = nid then some t else none
  | t@(.power b e _), nid =>
    if t.idOf = nid then some t
    else
      match IdAST.findNodeById b nid with
      | some n => some n
      | none => IdAST.findNodeById e nid
  | t@(.add ts _), nid =>
    if t.idOf = nid then some t else IdAST.findInList ts nid
  | t@(.call _ a _), nid =>
    if t.idOf = nid then some t else IdAST.findNodeById a nid
  | t@(.diff v a _), nid =>
    if t.idOf = nid then some t
    else
      match IdAST.findNodeById v nid with
      | some n => some n
      | none => IdAST.findNodeById a nid

/-- The `for t in ast["terms"]` loop of `_find_node_by_id`: return the first
hit among the terms. -/
def IdAST.findInList : List IdAST → String → Option IdAST
  | [], _ => none
  | t :: ts, nid =>
    match IdAST.findNodeById t nid with
    | some n => some n
    | none => IdAST.findInList ts nid

end

/-- The target-selection step of the `rewriteOptions` operation
(main.py line 1178): `_find_node_by_id(ast_with_ids, selectedNodeId) or
ast_with_ids` — an absent id falls back to the whole tree. -/
def rewriteTarget (t : IdAST) (nid : String) : IdAST :=
  match t.findNodeById nid with
  | some n => n
  | none => t

/-- Deep model of the algebra engine's expression values (SymPy `Expr`).
Structural equality of `SymExpr` models `srepr` equality of the engine's
expressions. `sym` is `Symbol`, `wild` is `Wild`, `intLit` is `Integer`,
`ratLit` is `Rational`, `imagUnit` is `I`, `fn` is a native unary function
application (`sin`, `cos`, `exp`, `Abs`, `conjugate`, ...), `undef` is an
uninterpreted `Function(name)(arg)` application, and `deriv` is an
unevaluated `Derivative(body, var)`. -/
inductive SymExpr : Type where
  | sym (name : String)
  | wild (name : String)
  | intLit (n : Int)
  | ratLit (num den : Int)
  | imagUnit
  | add (args : List SymExpr)
  | mul (args : List SymExpr)
  | pow (base exponent : SymExpr)
  | fn (name : String) (arg : SymExpr)
  | undef (name : String) (arg : SymExpr)
  | deriv (body var : SymExpr)

mutual

/-- Boolean structural equality on `SymExpr` (the engine's `srepr` string
comparison). -/
def SymExpr.beq : SymExpr → SymExpr → Bool
  | .sym a, .sym b => a == b
  | .wild a, .wild b => a == b
  | .intLit a, .intLit b => a == b
  | .ratLit a b, .ratLit c d => a == c && b == d
  | .imagUnit, .imagUnit => true
  | .add xs, .add ys => SymExpr.beqList xs ys
  | .mul xs, .mul ys => SymExpr.beqList xs ys
  | .pow a b, .pow c d => SymExpr.beq a c && SymExpr.beq b d
  | .fn n a, .fn m b => n == m && SymExpr.beq a b
  | .undef n a, .undef m b => n == m && SymExpr.beq a b
  | .deriv a v, .deriv b w => SymExpr.beq a b && SymExpr.beq v w
  | _, _ => false

/-- Pointwise `SymExpr.beq` on argument lists. -/
def SymExpr.beqList : List SymExpr → List SymExpr → Bool
  | [], [] => true
  | x :: xs, y :: ys => SymExpr.beq x y && SymExpr.beqList xs ys
  | _, _ => false

end

instance : BEq SymExpr := ⟨SymExpr.beq⟩

/-- `isinstance(e, sp.Symbol)` for the embedded expression type. -/
def SymExpr.isSymbol : SymExpr → Bool
  | .sym _ => true
  | _ => false

/-- `e.name` of a `Symbol` (only consulted after an `isSymbol` check in the
source; defaults to the empty string elsewhere). -/
def SymExpr.symName : SymExpr → String
  | .sym n => n
  | _ => ""

mutual

/-- `{s.name for s in e.free_symbols}`: the names of the free variables of an
expression. Order-insensitive uses only (membership, minimum). Wildcards do
not occur in the expressions this is applied to (parsed rule sides and
converted targets), so they contribute no names. -/
def SymExpr.freeSyms : SymExpr → List String
  | .sym n => [n]
  | .wild _ => []
  | .intLit _ => []
  | .ratLit _ _ => []
  | .imagUnit => []
  | .add xs => SymExpr.freeSymsList xs
  | .mul xs => SymExpr.freeSymsList xs
  | .pow a b => SymExpr.freeSyms a ++ SymExpr.freeSyms b
  | .fn _ a => SymExpr.freeSyms a
  | .undef _ a => SymExpr.freeSyms a
  | .deriv a v => SymExpr.freeSyms a ++ SymExpr.freeSyms v

/-- Union of free-variable names over an argument list. -/
def SymExpr.freeSymsList : List SymExpr → List String
  | [] => []
  | x :: xs => SymExpr.freeSyms x ++ SymExpr.freeSymsList xs

end

/-- Association lookup with `SymExpr` keys, modelling a Python dict lookup
(`rule[self]` inside `xreplace`). -/
def lookupExpr (m : List (SymExpr × SymExpr)) (k : SymExpr) : Option SymExpr :=
  match m with
  | [] => none
  | (a, b) :: rest => if SymExpr.beq a k then some b else lookupExpr rest k

mutual

/-- SymPy `Basic._xreplace(rule)`, the worker behind `Expr.xreplace`,
returning the rewritten node together with its `changed` flag: if the whole
node is a key of the mapping, its value replaces it and it counts as
changed (even when the value is equal to the key); otherwise the children
are processed, and when any child changed the node is rebuilt through
`self.func(*args)` — the engine's constructor, which applies the engine's
default evaluation `ev` to the reconstructed node (flattening, like-term
collection, argument reordering, ...). A node with no changed child is
returned as-is, preserving its possibly unevaluated shape. -/
def SymExpr.xreplaceAux (ev : SymExpr → SymExpr) (m : List (SymExpr × SymExpr)) :
    SymExpr → SymExpr × Bool
  | .sym n =>
    match lookupExpr m (.sym n) with
    | some v => (v, true)
    | none => (.sym n, false)
  | .wild n =>
    match lookupExpr m (.wild n) with
    | some v => (v, true)
    | none => (.wild n, false)
  | .intLit n =>
    match lookupExpr m (.intLit n) with
    | some v => (v, true)
    | none => (.intLit n, false)
  | .ratLit p q =>
    match lookupExpr m (.ratLit p q) with
    | some v => (v, true)
    | none => (.ratLit p q, false)
  | .imagUnit =>
    match lookupExpr m .imagUnit with
    | some v => (v, true)
    | none => (.imagUnit, false)
  | .add xs =>
    match lookupExpr m (.add xs) with
    | some v => (v, true)
    | none =>
      let r := SymExpr.xreplaceListAux ev m xs
      if r.2 then (ev (.add r.1), true) else (.add xs, false)
  | .mul xs =>
    match lookupExpr m (.mul xs) with
    | some v => (v, true)
    | none =>
      let r := SymExpr.xreplaceListAux ev m xs
      if r.2 then (ev (.mul r.1), true) else (.mul xs, false)
  | .pow a b =>
    match lookupExpr m (.pow a b) with
    | some v => (v, true)
    | none =>
      let ra := SymExpr.xreplaceAux ev m a
      let rb := SymExpr.xreplaceAux ev m b
      if ra.2 || rb.2 then (ev (.pow ra.1 rb.1), true) else (.pow a b, false)
  | .fn n a =>
    match lookupExpr m (.fn n a) with
    | some v => (v, true)
    | none =>
      let ra := SymExpr.xreplaceAux ev m a
      if ra.2 then (ev (.fn n ra.1), true) else (.fn n a, false)
  | .undef n a =>
    match lookupExpr m (.undef n a) with
    | some v => (v, true)
    | none =>
      let ra := SymExpr.xreplaceAux ev m a
      if ra.2 then (ev (.undef n ra.1), true) else (.undef n a, false)
  | .deriv a v =>
    match lookupExpr m (.deriv a v) with
    | some w => (w, true)
    | none =>
      let ra := SymExpr.xreplaceAux ev m a
      let rv := SymExpr.xreplaceAux ev m v
      if ra.2 || rv.2 then (ev (.deriv ra.1 rv.1), true) else (.deriv a v, false)

/-- `_xreplace` over an argument list: the replaced children and whether any
of them changed. -/
def SymExpr.xreplaceListAux (ev : SymExpr → SymExpr) (m : List (SymExpr × SymExpr)) :
    List SymExpr → List SymExpr × Bool
  | [] => ([], false)
  | x :: xs =>
    let rx := SymExpr.xreplaceAux ev m x
    let rxs := SymExpr.xreplaceListAux ev m xs
    (rx.1 :: rxs.1, rx.2 || rxs.2)

end

/-- SymPy `Expr.xreplace(rule)`: the value component of `_xreplace`. `ev` is
the default evaluation the engine's constructors apply to each rebuilt
node. -/
def SymExpr.xreplace (ev : SymExpr → SymExpr) (m : List (SymExpr × SymExpr))
    (e : SymExpr) : SymExpr :=
  (SymExpr.xreplaceAux ev m e).1

mutual

/-- Spec-side description of pattern construction (§3 of the spec): the
original tree with every variable reference replaced by the wildcard of the
same name, and nothing else changed. Compared against the source's
`xreplace`-based mechanism in `_build_rule`, whose evaluating rebuild makes
this description hold only when the engine's default evaluation is inert on
the rebuilt nodes. -/
def SymExpr.toWildAll : SymExpr → SymExpr
  | .sym n => .wild n
  | .wild n => .wild n
  | .intLit n => .intLit n
  | .ratLit p q => .ratLit p q
  | .imagUnit => .imagUnit
  | .add xs => .add (SymExpr.toWildAllList xs)
  | .mul xs => .mul (SymExpr.toWildAllList xs)
  | .pow a b => .pow (SymExpr.toWildAll a) (SymExpr.toWildAll b)
  | .fn n a => .fn n (SymExpr.toWildAll a)
  | .undef n a => .undef n (SymExpr.toWildAll a)
  | .deriv a v => .deriv (SymExpr.toWildAll a) (SymExpr.toWildAll v)

/-- List version of `SymExpr.toWildAll`. -/
def SymExpr.toWildAllList : List SymExpr → List SymExpr
  | [] => []
  | x :: xs => SymExpr.toWildAll x :: SymExpr.toWildAllList xs

end

mutual

/-- Spec-side description of the corrected pattern construction: replace
every variable reference whose name is in `names` by the wildcard of the
same name, rebuilding every node that contains a replacement through the
engine's default evaluation `ev`, bottom-up; nodes containing no
replacement are left untouched, preserving their possibly unevaluated
shape. The Boolean records whether the node contains a replacement.
Compared against the `xreplace`-based mechanism of `_build_rule`. -/
def SymExpr.wildSubstEval (ev : SymExpr → SymExpr) (names : List String) :
    SymExpr → SymExpr × Bool
  | .sym n => if n ∈ names then (.wild n, true) else (.sym n, false)
  | .wild n => (.wild n, false)
  | .intLit n => (.intLit n, false)
  | .ratLit p q => (.ratLit p q, false)
  | .imagUnit => (.imagUnit, false)
  | .add xs =>
    let r := SymExpr.wildSubstEvalList ev names xs
    if r.2 then (ev (.add r.1), true) else (.add xs, false)
  | .mul xs =>
    let r := SymExpr.wildSubstEvalList ev names xs
    if r.2 then (ev (.mul r.1), true) else (.mul xs, false)
  | .pow a b =>
    let ra := SymExpr.wildSubstEval ev names a
    let rb := SymExpr.wildSubstEval ev names b
    if ra.2 || rb.2 then (ev (.pow ra.1 rb.1), true) else (.pow a b, false)
  | .fn n a =>
    let ra := SymExpr.wildSubstEval ev names a
    if ra.2 then (ev (.fn n ra.1), true) else (.fn n a, false)
  | .undef n a =>
    let ra := SymExpr.wildSubstEval ev names a
    if ra.2 then (ev (.undef n ra.1), true) else (.undef n a, false)
  | .deriv a v =>
    let ra := SymExpr.wildSubstEval ev names a
    let rv := SymExpr.wildSubstEval ev names v
    if ra.2 || rv.2 then (ev (.deriv ra.1 rv.1), true) else (.deriv a v, false)

/-- List version of `SymExpr.wildSubstEval`. -/
def SymExpr.wildSubstEvalList (ev : SymExpr → SymExpr) (names : List String) :
    List SymExpr → List SymExpr × Bool
  | [] => ([], false)
  | x :: xs =>
    let rx := SymExpr.wildSubstEval ev names x
    let rxs := SymExpr.wildSubstEvalList ev names xs
    (rx.1 :: rxs.1, rx.2 || rxs.2)

end

/-- The loaded-rule dictionary built by `_build_rule` (main.py lines 64-81).
`wilds` holds the wildcard names (the keys of the Python `wilds` dict; the
values are always `sp.Wild(name)` and carry no extra information). -/
structure Rule : Type where
  name : String
  label : String
  left_template : SymExpr
  right_template : SymExpr
  left_pattern : SymExpr
  right_pattern : SymExpr
  wilds : List String

/-- `_build_rule` after the two `_sympify_rule_side` parses (main.py lines
64-81): collect the union of free-symbol names of both sides, build the
symbol-to-wildcard replacement map and apply `xreplace` to each side for the
patterns, keeping the parsed sides as the templates. `ev` is the engine's
default constructor evaluation, applied inside `xreplace` to every rebuilt
node, so a pattern is in general the evaluated image of the substituted
side, not the substituted side itself.

Python's anonymous-rule default name uses `hash()`, which is
process-dependent; it is modelled here by a fixed placeholder (no claim
depends on it). -/
def buildRuleFromExprs (ev : SymExpr → SymExpr) (left_expr right_expr : SymExpr)
    (left_str right_str name label : String) : Rule :=
  let symbol_names := (left_expr.freeSyms ++ right_expr.freeSyms).dedup
  let replace_map := symbol_names.map (fun n => (SymExpr.sym n, SymExpr.wild n))
  { name := if name = "" then "rule_unnamed" else name
    label := if label = "" then left_str ++ " ↔ " ++ right_str else label
    left_template := left_expr
    right_template := right_expr
    left_pattern := SymExpr.xreplace ev replace_map left_expr
    right_pattern := SymExpr.xreplace ev replace_map right_expr
    wilds := symbol_names }

/-- `_build_rule` (main.py lines 64-81) with the side parser
(`_sympify_rule_side`, an external-engine call) abstracted as a fallible
function and the engine's constructor evaluation as `ev`; a parse exception
becomes `none`. -/
def buildRule (sideParse : String → Option SymExpr) (ev : SymExpr → SymExpr)
    (left_str right_str name label : String) : Option Rule :=
  match sideParse left_str, sideParse right_str with
  | some l, some r => some (buildRuleFromExprs ev l r left_str right_str name label)
  | _, _ => none

/-- The `name`/`label` extraction loop of `_parse_rule_line` over the chunks
of the post-`#` metadata split on `|`. -/
def parseMeta : List String → String × String → String × String
  | [], acc => acc
  | chunk :: rest, (name, label) =>
    let c := pyStrip chunk
    if pyStartsWith (pyLower c) "rule:" then
      match pySplit ":" c with
      | _ :: tailParts => parseMeta rest (pyStrip (String.intercalate ":" tailParts), label)
      | [] => parseMeta rest (name, label)
    else if pyStartsWith (pyLower c) "label:" then
      match pySplit ":" c with
      | _ :: tailParts => parseMeta rest (name, pyStrip (String.intercalate ":" tailParts))
      | [] => parseMeta rest (name, label)
    else parseMeta rest (name, label)

/-- `_parse_rule_line` (main.py lines 84-108): split off the `#` metadata,
require exactly one `rewrite` keyword in the core, extract name/label from
the metadata, and compile via `_build_rule`; any failure yields `none`. -/
def parseRuleLine (sideParse : String → Option SymExpr) (ev : SymExpr → SymExpr)
    (line : String) : Option Rule :=
  let pieces := pySplit "#" line
  let core := pieces.headD line
  let meta := String.intercalate "#" pieces.tail
  match pySplit "rewrite" core with
  | [left_part, right_part] =>
    let left_str := pyStrip left_part
    let right_str := pyStrip right_part
    let nl := if meta = "" then ("", "") else parseMeta (pySplit "|" meta) ("", "")
    buildRule sideParse ev left_str right_str nl.1 nl.2
  | _ => none

/-- The per-file line loop of `_load_rewrite_rules_from_dir` (main.py lines
121-127): strip each line, skip blank and comment lines, and keep the lines
that compile to a rule. -/
def rulesOfLines (sideParse : String → Option SymExpr) (ev : SymExpr → SymExpr) :
    List String → List Rule
  | [] => []
  | raw :: rest =>
    let line := pyStrip raw
    if line = "" || pyStartsWith line "#" then rulesOfLines sideParse ev rest
    else
      match parseRuleLine sideParse ev line with
      | some r => r :: rulesOfLines sideParse ev rest
      | none => rulesOfLines sideParse ev rest

/-- The text of one rule file, split into lines (`text.splitlines()`; a
carriage return left by a CRLF line ending is removed by the per-line
strip). -/
def rulesOfText (sideParse : String → Option SymExpr) (ev : SymExpr → SymExpr)
    (text : String) : List Rule :=
  rulesOfLines sideParse ev (pySplit "\n" text)

/-- `_load_rewrite_rules_from_dir` (main.py lines 111-130) with the
filesystem abstracted: `dirExists` is `dir_path.exists()`, and each matched
file is `some text` when `read_text` succeeds and `none` when it raises
(the `except: continue` branch). A missing directory returns the empty
list; an unreadable file contributes nothing. -/
def loadRewriteRulesFromDir (sideParse : String → Option SymExpr)
    (ev : SymExpr → SymExpr) (dirExists : Bool) (files : List (Option String)) :
    List Rule :=
  if ¬ dirExists then []
  else
    match files with
    | [] => []
    | f :: rest =>
      (match f with
       | none => []
       | some text => rulesOfText sideParse ev text) ++
        loadRewriteRulesFromDir sideParse ev dirExists rest

/-- `RewriteOption` (schemas.py lines 107-112). -/
structure RewriteOption : Type where
  id : String
  label : String
  ruleName : String
  replacementContentMathML : String
  replacementPresentationMathML : String
deriving DecidableEq, Repr

/-- The operations the suggestion code consumes from the external algebra
engine (SymPy): `expr.match(pattern)` (returning a wildcard-name-keyed
binding), the default evaluation `evalNode` the engine's constructors apply
to every node rebuilt inside `xreplace` (`self.func(*args)`), `sp.simplify`,
`sp.Poly(expr, var)` degree and coefficient extraction, and the markup
renderers (`_sympy_to_mathml_strings` with its fallbacks, which always
produce a content/presentation string pair). -/
structure Engine : Type where
  matchExpr : SymExpr → SymExpr → Option (List (String × SymExpr))
  evalNode : SymExpr → SymExpr
  simplify : SymExpr → SymExpr
  polyCoeffs : SymExpr → String → Option (Nat × List SymExpr)
  render : SymExpr → String × String

/-- String-keyed association lookup (Python `dict.get`). -/
def lookupStr (m : List (String × SymExpr)) (k : String) : Option SymExpr :=
  match m with
  | [] => none
  | (a, b) :: rest => if a = k then some b else lookupStr rest k

/-- `dict.get(key, default)` for string-to-string maps. -/
def lookupStrD (m : List (String × String)) (k dflt : String) : String :=
  match m with
  | [] => dflt
  | (a, b) :: rest => if a = k then b else lookupStrD rest k dflt

/-- `_apply_mapping` (main.py lines 49-61): convert the wildcard-keyed match
binding into Symbol-keyed replacements and `xreplace` them into the
template, rebuilt nodes passing through the engine's default evaluation
`ev`. -/
def applyMapping (ev : SymExpr → SymExpr) (template : SymExpr) (wilds : List String)
    (m : List (String × SymExpr)) : SymExpr :=
  let subs := wilds.filterMap (fun n => (lookupStr m n).map (fun v => (SymExpr.sym n, v)))
  SymExpr.xreplace ev subs template

/-- `_rule_allowed` (main.py lines 144-160): with no assumptions supplied the
`conjugate_exp_i_theta` rule is blocked; with assumptions it requires the
`theta` wildcard to have matched a `Symbol` whose name the assumptions map
tags `real` or `positive` (case-insensitively). All other rules are always
allowed. -/
def ruleAllowed (assumptions : List (String × String)) (r : Rule)
    (match_map : List (String × SymExpr)) : Bool :=
  let name := r.name
  if assumptions.isEmpty then
    if name = "conjugate_exp_i_theta" then false else true
  else
    if name = "conjugate_exp_i_theta" then
      if r.wilds.contains "theta" then
        match lookupStr match_map "theta" with
        | some theta_val =>
          if theta_val.isSymbol then
            let status := pyLower (lookupStrD assumptions theta_val.symName "")
            status = "real" || status = "positive"
          else false
        | none => false
      else false
    else true

/-- The `complete_square` degeneracy guard in the matching loop (main.py
lines 168-175 and 212-218): the `x` wildcard must have bound a bare
`Symbol`; otherwise a `ValueError` is raised, caught by the enclosing
handler, and the candidate in this direction is dropped. -/
def completeSquareGuardFails (r : Rule) (m : List (String × SymExpr)) : Bool :=
  r.wilds.contains "x" &&
    (match lookupStr m "x" with
     | some v => ¬ v.isSymbol
     | none => false)

/-- The forward half of the per-rule body of
`_generate_options_from_loaded_rules` (main.py lines 162-207): match the
target against the left pattern, check `_rule_allowed` and the
`complete_square` guard, instantiate the right template, simplify for
`complete_square`, and emit unless the replacement is structurally identical
to the input. -/
def forwardOption (eng : Engine) (assumptions : List (String × String))
    (expr : SymExpr) (r : Rule) : Option RewriteOption :=
  match eng.matchExpr expr r.left_pattern with
  | none => none
  | some m1 =>
    if ruleAllowed assumptions r m1 then
      if r.name = "complete_square" && completeSquareGuardFails r m1 then none
      else
        let replacement := applyMapping eng.evalNode r.right_template r.wilds m1
        let replacement := if r.name = "complete_square" then eng.simplify replacement
                           else replacement
        let same := replacement == expr
        if ¬ same then
          let cp := eng.render replacement
          some { id := r.name ++ "_forward", label := r.label, ruleName := r.name,
                 replacementContentMathML := cp.1,
                 replacementPresentationMathML := cp.2 }
        else none
    else none

/-- The reverse half of the per-rule body (main.py lines 208-250): match
against the right pattern and instantiate the left template; the
`combine_like_terms_add` rule is force-shown even when the replacement is
structurally identical to the input. -/
def reverseOption (eng : Engine) (assumptions : List (String × String))
    (expr : SymExpr) (r : Rule) : Option RewriteOption :=
  match eng.matchExpr expr r.right_pattern with
  | none => none
  | some m2 =>
    if ruleAllowed assumptions r m2 then
      if r.name = "complete_square" && completeSquareGuardFails r m2 then none
      else
        let replacement := applyMapping eng.evalNode r.left_template r.wilds m2
        let replacement := if r.name = "complete_square" then eng.simplify replacement
                           else replacement
        let same := replacement == expr
        let force_show := r.name = "combine_like_terms_add"
        if ¬ same || force_show then
          let cp := eng.render replacement
          some { id := r.name ++ "_reverse", label := r.label ++ " (reverse)",
                 ruleName := r.name,
                 replacementContentMathML := cp.1,
                 replacementPresentationMathML := cp.2 }
        else none
    else none

/-- `_generate_options_from_loaded_rules` (main.py lines 141-251): for every
loaded rule, try the forward and then the reverse direction, collecting the
emitted options in rule order. -/
def genLoadedOptions (eng : Engine) (assumptions : List (String × String))
    (rules : List Rule) (expr : SymExpr) : List RewriteOption :=
  match rules with
  | [] => []
  | r :: rest =>
    ((forwardOption eng assumptions expr r).toList ++
      (reverseOption eng assumptions expr r).toList) ++
      genLoadedOptions eng assumptions rest expr

/-- `sorted(free, key=lambda s: s.name)[0]`: the lexicographically least
name of a non-empty list (the head element is the seed). -/
def sortedHead : List String → String
  | [] => ""
  | f :: fs => fs.foldl (fun acc n => if n < acc then n else acc) f

/-- The expression `a*(x + b/(2*a))**2 - b**2/(4*a) + c` built by the
complete-the-square generator (main.py line 750), with the algebra engine's
representation of division as multiplication by a `-1` power and of
subtraction as a `-1` multiple. -/
def csFormula (a b c : SymExpr) (x : String) : SymExpr :=
  .add [.mul [a, .pow (.add [.sym x, .mul [b, .pow (.mul [.intLit 2, a]) (.intLit (-1))]])
                 (.intLit 2)],
        .mul [.intLit (-1), .pow b (.intLit 2), .pow (.mul [.intLit 4, a]) (.intLit (-1))],
        c]

/-- The complete-the-square block of `_generate_rewrite_options` (main.py
lines 735-772): when the target has free variables, pick `x` when free,
else the alphabetically-first free variable; when the engine's polynomial
view has degree 2 with three coefficients, build the completed-square
formula, simplify it, and emit a `complete_square` option exactly when the
simplified result is not structurally identical to the input. -/
def completeSquareOptions (eng : Engine) (expr : SymExpr) : List RewriteOption :=
  let free := expr.freeSyms
  if free.isEmpty then []
  else
    let var := if free.contains "x" then "x" else sortedHead free
    match eng.polyCoeffs expr var with
    | none => []
    | some (deg, coeffs) =>
      if deg = 2 then
        match coeffs with
        | [a, b, c] =>
          let completed := csFormula a b c var
          let comp_simpl := eng.simplify completed
          let same := comp_simpl == expr
          if ¬ same then
            let cp := eng.render comp_simpl
            [{ id := "complete_square_auto",
               label := "Complete the square: ax^2+bx+c → a(x + b/(2a))^2 - b^2/(4a) + c",
               ruleName := "complete_square",
               replacementContentMathML := cp.1,
               replacementPresentationMathML := cp.2 }]
          else []
        | _ => []
      else []

/-- The digit run of a Python integer literal: non-empty, all ASCII digits,
evaluated in base 10. Python's permitted digit-group underscores are not
modelled; no claim depends on them. -/
def digitsVal : List Char → Option Nat
  | [] => none
  | cs =>
    if cs.all Char.isDigit then
      some (cs.foldl (fun a c => a * 10 + (c.toNat - 48)) 0)
    else none

/-- Model of Python `int(txt)` on a string: optional surrounding whitespace,
optional sign, then a non-empty digit run; anything else raises (is
`none`). -/
def intPy (s : String) : Option Int :=
  match (pyStrip s).data with
  | '+' :: rest => (digitsVal rest).map (fun n => (n : Int))
  | '-' :: rest => (digitsVal rest).map (fun n => -(n : Int))
  | cs => (digitsVal cs).map (fun n => (n : Int))

/-- Model of the algebra engine's rational-literal parser
(`sp.Rational(txt)`): an integer, a `p/q` fraction, or a decimal `w.f`
literal; the pair holds the literal numerator and denominator. -/
def ratPy (s : String) : Option (Int × Int) :=
  let t := pyStrip s
  match pySplit "/" t with
  | [a, b] =>
    match intPy a, intPy b with
    | some x, some y => some (x, y)
    | _, _ => none
  | [a] =>
    match pySplit "." a with
    | [w, f] =>
      match intPy w, digitsVal f.data with
      | some x, some y =>
        let scale : Int := (10 : Int) ^ f.length
        if x < 0 then some (x * scale - y, scale) else some (x * scale + y, scale)
      | _, _ => none
    | _ => (intPy a).map (fun n => (n, 1))
  | _ => none

mutual

/-- `_ast_to_sympy` (main.py lines 1096-1166): total conversion of the
minimal AST into the algebra engine's expression type. `i`/`I` identifiers
become the imaginary unit; a numeric literal tries integer, then rational,
then falls back to an opaque identifier; recognized unary function names
map to native applications (the source's version-compatibility fallbacks
for `sec`/`csc`/`cot` are unreachable under an engine that exposes them);
`times` unwraps the parser's product encoding; any other function name
becomes an uninterpreted application of the lowercased name. -/
def astToSympy : AST → SymExpr
  | .ident n => if n = "i" ∨ n = "I" then .imagUnit else .sym n
  | .number v =>
    match intPy v with
    | some k => .intLit k
    | none =>
      match ratPy v with
      | some (p, q) => .ratLit p q
      | none => .sym v
  | .power b e => .pow (astToSympy b) (astToSympy e)
  | .add ts =>
    let terms := astToSympyList ts
    if terms.isEmpty then .intLit 0 else .add terms
  | .call f a =>
    let fl := pyLower f
    let arg := astToSympy a
    if fl = "sin" then .fn "sin" arg
    else if fl = "cos" then .fn "cos" arg
    else if fl = "tan" then .fn "tan" arg
    else if fl = "sec" then .fn "sec" arg
    else if fl = "csc" then .fn "csc" arg
    else if fl = "cot" then .fn "cot" arg
    else if fl = "log" then .fn "log" arg
    else if fl = "exp" then .fn "exp" arg
    else if fl = "abs" ∨ fl = "absolutevalue" then .fn "abs" arg
    else if fl = "conjugate" ∨ fl = "conj" then .fn "conjugate" arg
    else if fl = "times" then
      match a with
      | .add ts =>
        let factors := astToSympyList ts
        if factors.isEmpty then .intLit 1 else .mul factors
      | _ => arg
    else .undef fl arg
  | .diff v a =>
    let var := match v with
               | .ident n => SymExpr.sym n
               | _ => SymExpr.sym "x"
    .deriv (astToSympy a) var

/-- The term/factor list comprehensions inside `_ast_to_sympy`. -/
def astToSympyList : List AST → List SymExpr
  | [] => []
  | t :: ts => astToSympy t :: astToSympyList ts

end

/-- Whether an AST node is the `add`-shaped product encoding consumed by the
`times` branch of `_ast_to_sympy`. -/
def AST.isAdd : AST → Bool
  | .add _ => true
  | _ => false

/-- The target `conjugate(exp(I*theta))` selected at the root, as converted
by the algebra adapter. -/
def conjExpr : SymExpr := .fn "conjugate" (.fn "exp" (.mul [.imagUnit, .sym "theta"]))

/-- Modelled from the spec: the assumption-gated catalog rule
`conjugate_exp_i_theta`. Its `*rewriterules` definition file lives in the
rules directory, which is not part of `src/`; §8 of the spec fixes the rule
(input `conjugate(exp(I·theta))`, gated on `theta` being declared real) and
§4.4 fixes its compilation, so the compiled form is reconstructed by
passing the two parsed sides through the embedded `_build_rule`, with the
engine's default evaluation modelled as inert on the nodes this instance
rebuilds. -/
def conjExpRule : Rule :=
  buildRuleFromExprs (fun e => e)
    (.fn "conjugate" (.fn "exp" (.mul [.imagUnit, .sym "theta"])))
    (.fn "exp" (.mul [.intLit (-1), .imagUnit, .sym "theta"]))
    "conjugate(exp(I*theta))" "exp(-I*theta)"
    "conjugate_exp_i_theta" "Conjugate of a unit-modulus exponential"

/-- Modelled from the spec: an engine instance whose `match` realizes §4.5's
wildcard unification at this claim's input — matching
`conjugate(exp(I*theta))` against the rule's left pattern binds the `theta`
wildcard to the bare symbol `theta`; nothing else matches. -/
def conjEngine : Engine where
  matchExpr := fun e p =>
    if p == conjExpRule.left_pattern && e == conjExpr then
      some [("theta", SymExpr.sym "theta")]
    else none
  evalNode := fun e => e
  simplify := fun e => e
  polyCoeffs := fun _ _ => none
  render := fun _ => ("content", "presentation")

/-- The engine's default constructor evaluation at the nodes rebuilt while
compiling and applying the `combine_like_terms_add` rule: the engine's
like-term collection turns `Add(a, a)` into `Mul(2, a)` and
`Add(Wild(a), Wild(a))` into `Mul(2, Wild(a))`; the remaining rebuilt nodes
(`Mul(2, a)`, `Mul(2, Wild(a))`) are already in evaluated form and are left
unchanged, as is everything else this instance never rebuilds. -/
def combEval : SymExpr → SymExpr := fun e =>
  if e == SymExpr.add [.sym "a", .sym "a"] then .mul [.intLit 2, .sym "a"]
  else if e == SymExpr.add [.wild "a", .wild "a"] then .mul [.intLit 2, .wild "a"]
  else e

/-- The `combine_like_terms_add` catalog rule
(`a + a rewrite 2*a # rule: combine_like_terms_add`), compiled by the
embedded `_build_rule` under the engine evaluation `combEval`. Note that the
evaluating rebuild inside `xreplace` collapses the substituted left side
`Add(Wild(a), Wild(a))` to `Mul(2, Wild(a))`, so both compiled patterns are
`2*Wild(a)`. -/
def combRule : Rule :=
  buildRuleFromExprs combEval
    (.add [.sym "a", .sym "a"]) (.mul [.intLit 2, .sym "a"])
    "a + a" "2*a" "combine_like_terms_add" "Combine like terms"

/-- The target `2*a`: the forward instantiation of `combRule` at the match
`a ↦ a` reproduces it exactly. -/
def combExpr : SymExpr := .mul [.intLit 2, .sym "a"]

/-- An engine instance where `2*a` matches both sides of `combRule` with
`a ↦ Symbol('a')` (as SymPy's matcher does for this rule and target). -/
def combEngine : Engine where
  matchExpr := fun _ p =>
    if p == combRule.left_pattern || p == combRule.right_pattern then
      some [("a", SymExpr.sym "a")]
    else none
  evalNode := combEval
  simplify := fun e => e
  polyCoeffs := fun _ _ => none
  render := fun _ => ("content", "presentation")

/-- The quadratic `x^2 + 6*x + 5` as an engine expression. -/
def csExpr : SymExpr :=
  .add [.pow (.sym "x") (.intLit 2), .mul [.intLit 6, .sym "x"], .intLit 5]

/-- `(x + 3)^2 - 4`: the simplified completed square of `csExpr`. -/
def csSimplified : SymExpr :=
  .add [.pow (.add [.sym "x", .intLit 3]) (.intLit 2), .intLit (-4)]

/-- An engine instance realizing the polynomial view and simplification of
`x^2 + 6*x + 5` used by the complete-the-square generator. -/
def csEngine : Engine where
  matchExpr := fun _ _ => none
  evalNode := fun e => e
  simplify := fun e =>
    if e == csFormula (.intLit 1) (.intLit 6) (.intLit 5) "x" then csSimplified else e
  polyCoeffs := fun e v =>
    if e == csExpr && v = "x" then some (2, [.intLit 1, .intLit 6, .intLit 5]) else none
  render := fun _ => ("C", "P")

/-- A concrete side parser (the external `_sympify_rule_side` capability) for
exercising the rule-file loader. -/
def demoSideParse : String → Option SymExpr :=
  fun s =>
    if s = "a" then some (.sym "a")
    else if s = "a + a" then some (.add [.sym "a", .sym "a"])
    else if s = "2*a" then some (.mul [.intLit 2, .sym "a"])
    else none

/-! ### Induction principles for the nested tree types -/

theorem AST.astIndOn {P : AST → Prop}
    (hident : ∀ n, P (.ident n))
    (hnumber : ∀ v, P (.number v))
    (hpower : ∀ b e, P b → P e → P (.power b e))
    (hadd : ∀ ts, (∀ t ∈ ts, P t) → P (.add ts))
    (hcall : ∀ f a, P a → P (.call f a))
    (hdiff : ∀ v a, P v → P a → P (.diff v a)) : ∀ t, P t
  | .ident n => hident n
  | .number v => hnumber v
  | .power b e =>
    hpower b e (AST.astIndOn hident hnumber hpower hadd hcall hdiff b)
      (AST.astIndOn hident hnumber hpower hadd hcall hdiff e)
  | .add ts =>
    hadd ts (fun t ht => AST.astIndOn hident hnumber hpower hadd hcall hdiff t)
  | .call f a => hcall f a (AST.astIndOn hident hnumber hpower hadd hcall hdiff a)
  | .diff v a =>
    hdiff v a (AST.astIndOn hident hnumber hpower hadd hcall hdiff v)
      (AST.astIndOn hident hnumber hpower hadd hcall hdiff a)
termination_by t => sizeOf t
decreasing_by
  all_goals simp_wf
  all_goals first
    | omega
    | (have h9 := List.sizeOf_lt_of_mem ht; omega)

theorem IdAST.idAstIndOn {P : IdAST → Prop}
    (hident : ∀ n i, P (.ident n i))
    (hnumber : ∀ v i, P (.number v i))
    (hpower : ∀ b e i, P b → P e → P (.power b e i))
    (hadd : ∀ ts i, (∀ t ∈ ts, P t) → P (.add ts i))
    (hcall : ∀ f a i, P a → P (.call f a i))
    (hdiff : ∀ v a i, P v → P a → P (.diff v a i)) : ∀ t, P t
  | .ident n i => hident n i
  | .number v i => hnumber v i
  | .power b e i =>
    hpower b e i (IdAST.idAstIndOn hident hnumber hpower hadd hcall hdiff b)
      (IdAST.idAstIndOn hident hnumber hpower hadd hcall hdiff e)
  | .add ts i =>
    hadd ts i (fun t ht => IdAST.idAstIndOn hident hnumber hpower hadd hcall hdiff t)
  | .call f a i => hcall f a i (IdAST.idAstIndOn hident hnumber hpower hadd hcall hdiff a)
  | .diff v a i =>
    hdiff v a i (IdAST.idAstIndOn hident hnumber hpower hadd hcall hdiff v)
      (IdAST.idAstIndOn hident hnumber hpower hadd hcall hdiff a)
termination_by t => sizeOf t
decreasing_by
  all_goals simp_wf
  all_goals first
    | omega
    | (have h9 := List.sizeOf_lt_of_mem ht; omega)

theorem SymExpr.symIndOn {P : SymExpr → Prop}
    (hsym : ∀ n, P (.sym n))
    (hwild : ∀ n, P (.wild n))
    (hint : ∀ n, P (.intLit n))
    (hrat : ∀ p q, P (.ratLit p q))
    (himag : P .imagUnit)
    (hadd : ∀ xs, (∀ x ∈ xs, P x) → P (.add xs))
    (hmul : ∀ xs, (∀ x ∈ xs, P x) → P (.mul xs))
    (hpow : ∀ a b, P a → P b → P (.pow a b))
    (hfn : ∀ n a, P a → P (.fn n a))
    (hundef : ∀ n a, P a → P (.undef n a))
    (hderiv : ∀ a v, P a → P v → P (.deriv a v)) : ∀ e, P e
  | .sym n => hsym n
  | .wild n => hwild n
  | .intLit n => hint n
  | .ratLit p q => hrat p q
  | .imagUnit => himag
  | .add xs =>
    hadd xs (fun x hx =>
      SymExpr.symIndOn hsym hwild hint hrat himag hadd hmul hpow hfn hundef hderiv x)
  | .mul xs =>
    hmul xs (fun x hx =>
      SymExpr.symIndOn hsym hwild hint hrat himag hadd hmul hpow hfn hundef hderiv x)
  | .pow a b =>
    hpow a b (SymExpr.symIndOn hsym hwild hint hrat himag hadd hmul hpow hfn hundef hderiv a)
      (SymExpr.symIndOn hsym hwild hint hrat himag hadd hmul hpow hfn hundef hderiv b)
  | .fn n a =>
    hfn n a (SymExpr.symIndOn hsym hwild hint hrat himag hadd hmul hpow hfn hundef hderiv a)
  | .undef n a =>
    hundef n a (SymExpr.symIndOn hsym hwild hint hrat himag hadd hmul hpow hfn hundef hderiv a)
  | .deriv a v =>
    hderiv a v (SymExpr.symIndOn hsym hwild hint hrat himag hadd hmul hpow hfn hundef hderiv a)
      (SymExpr.symIndOn hsym hwild hint hrat himag hadd hmul hpow hfn hundef hderiv v)
termination_by e => sizeOf e
decreasing_by
  all_goals simp_wf
  all_goals first
    | omega
    | (have h9 := List.sizeOf_lt_of_mem hx; omega)

/-! ### `SymExpr.beq` is structural equality -/

theorem SymExpr.beqList_iff (xs : List SymExpr)
    (ih : ∀ x ∈ xs, ∀ b, SymExpr.beq x b = true ↔ x = b) :
    ∀ ys, SymExpr.beqList xs ys = true ↔ xs = ys := by
  induction xs with
  | nil => intro ys; cases ys <;> simp [SymExpr.beqList]
  | cons x xs ihxs =>
    intro ys
    cases ys with
    | nil => simp [SymExpr.beqList]
    | cons y ys =>
      have hx := ih x (by simp) y
      have hrest := ihxs (fun z hz b => ih z (by simp [hz]) b) ys
      simp [SymExpr.beqList, hx, hrest]

theorem SymExpr.beq_iff : ∀ a b : SymExpr, SymExpr.beq a b = true ↔ a = b := by
  intro a
  induction a using SymExpr.symIndOn with
  | hsym n => intro b; cases b <;> simp [SymExpr.beq]
  | hwild n => intro b; cases b <;> simp [SymExpr.beq]
  | hint n => intro b; cases b <;> simp [SymExpr.beq]
  | hrat p q => intro b; cases b <;> simp [SymExpr.beq]
  | himag => intro b; cases b <;> simp [SymExpr.beq]
  | hadd xs ih =>
    intro b
    cases b <;> simp [SymExpr.beq]
    exact SymExpr.beqList_iff xs ih _
  | hmul xs ih =>
    intro b
    cases b <;> simp [SymExpr.beq]
    exact SymExpr.beqList_iff xs ih _
  | hpow a b iha ihb =>
    intro c; cases c <;> simp [SymExpr.beq, iha, ihb]
  | hfn n a iha =>
    intro c; cases c <;> simp [SymExpr.beq, iha]
  | hundef n a iha =>
    intro c; cases c <;> simp [SymExpr.beq, iha]
  | hderiv a v iha ihv =>
    intro c; cases c <;> simp [SymExpr.beq, iha, ihv]

instance : LawfulBEq SymExpr where
  eq_of_beq h := (SymExpr.beq_iff _ _).mp h
  rfl := (SymExpr.beq_iff _ _).mpr rfl

instance : DecidableEq SymExpr := fun a b =>
  decidable_of_iff (SymExpr.beq a b = true) (SymExpr.beq_iff a b)

/-! ### The djb2 hash and its hexadecimal rendering -/

theorem hexDigitChar_mem : ∀ k : Nat, k < 16 → hexDigitChar k ∈ hexAlphabet := by
  decide

theorem pyHexCore_chars :
    ∀ (fuel n : Nat) (acc : List Char), (∀ c ∈ acc, c ∈ hexAlphabet) →
      ∀ c ∈ pyHexCore fuel n acc, c ∈ hexAlphabet := by
  intro fuel
  induction fuel with
  | zero => intro n acc hacc c hc; exact hacc c hc
  | succ fuel ih =>
    intro n acc hacc c hc
    simp only [pyHexCore] at hc
    by_cases h16 : n < 16
    · rw [if_pos h16] at hc
      rcases List.mem_cons.mp hc with rfl | hc
      · exact hexDigitChar_mem _ (Nat.mod_lt _ (by omega))
      · exact hacc c hc
    · rw [if_neg h16] at hc
      refine ih _ _ ?_ c hc
      intro d hd
      rcases List.mem_cons.mp hd with rfl | hd
      · exact hexDigitChar_mem _ (Nat.mod_lt _ (by omega))
      · exact hacc d hd

theorem pyHexFormat_chars (n : Nat) : ∀ c ∈ (pyHexFormat n).data, c ∈ hexAlphabet := by
  intro c hc
  rw [pyHexFormat] at hc
  exact pyHexCore_chars (n + 1) n [] (fun d hd => absurd hd (List.not_mem_nil d)) c hc

theorem djb2Step_spec (h : Nat) (c : Char) :
    djb2Step h c = (h * 33 + c.toNat) % 4294967296 := by
  have h32 : (0xFFFFFFFF : Nat) = 2 ^ 32 - 1 := by norm_num
  have e1 : (h <<< 5) + h + c.toNat = h * 33 + c.toNat := by
    rw [Nat.shiftLeft_eq]
    ring
  rw [djb2Step, h32, Nat.and_pow_two_sub_one_eq_mod, e1]

theorem djb2Acc_spec_aux (cs : List Char) :
    ∀ a : Nat, cs.foldl djb2Step a =
      cs.foldl (fun h c => (h * 33 + c.toNat) % 4294967296) a := by
  induction cs with
  | nil => intro a; rfl
  | cons c cs ih =>
    intro a
    simp only [List.foldl_cons, djb2Step_spec]
    exact ih _

theorem djb2Acc_spec (cs : List Char) :
    djb2Acc cs = cs.foldl (fun h c => (h * 33 + c.toNat) % 4294967296) 5381 :=
  djb2Acc_spec_aux cs 5381

/-! ### Id assignment: canonical strings, erasure, preorder -/

mutual

theorem canonicalI_withIds : ∀ t : AST, (t.withIds).canonicalI = t.canonical
  | .ident n => by simp [AST.withIds, IdAST.canonicalI, AST.canonical]
  | .number v => by simp [AST.withIds, IdAST.canonicalI, AST.canonical]
  | .power b e => by
    simp [AST.withIds, IdAST.canonicalI, AST.canonical,
      canonicalI_withIds b, canonicalI_withIds e]
  | .add ts => by
    simp [AST.withIds, IdAST.canonicalI, AST.canonical, canonicalIList_withIdsList ts]
  | .call f a => by
    simp [AST.withIds, IdAST.canonicalI, AST.canonical, canonicalI_withIds a]
  | .diff v a => by
    simp [AST.withIds, IdAST.canonicalI, AST.canonical,
      canonicalI_withIds v, canonicalI_withIds a]

theorem canonicalIList_withIdsList :
    ∀ ts : List AST, IdAST.canonicalIList (AST.withIdsList ts) = AST.canonicalList ts
  | [] => by simp [AST.withIdsList, IdAST.canonicalIList, AST.canonicalList]
  | t :: ts => by
    simp [AST.withIdsList, IdAST.canonicalIList, AST.canonicalList,
      canonicalI_withIds t, canonicalIList_withIdsList ts]

end

mutual

theorem eraseIds_withIds : ∀ t : AST, (t.withIds).eraseIds = t
  | .ident n => by simp [AST.withIds, IdAST.eraseIds]
  | .number v => by simp [AST.withIds, IdAST.eraseIds]
  | .power b e => by
    simp [AST.withIds, IdAST.eraseIds, eraseIds_withIds b, eraseIds_withIds e]
  | .add ts => by
    simp [AST.withIds, IdAST.eraseIds, eraseIdsList_withIdsList ts]
  | .call f a => by simp [AST.withIds, IdAST.eraseIds, eraseIds_withIds a]
  | .diff v a => by
    simp [AST.withIds, IdAST.eraseIds, eraseIds_withIds v, eraseIds_withIds a]

theorem eraseIdsList_withIdsList :
    ∀ ts : List AST, IdAST.eraseIdsList (AST.withIdsList ts) = ts
  | [] => by simp [AST.withIdsList, IdAST.eraseIdsList]
  | t :: ts => by
    simp [AST.withIdsList, IdAST.eraseIdsList, eraseIds_withIds t,
      eraseIdsList_withIdsList ts]

end

theorem idOf_withIds : ∀ t : AST, (t.withIds).idOf = djb2Hex ((t.withIds).canonicalI)
  | .ident n => by simp [AST.withIds, IdAST.idOf, IdAST.canonicalI, AST.canonical]
  | .number v => by simp [AST.withIds, IdAST.idOf, IdAST.canonicalI, AST.canonical]
  | .power b e => by simp [AST.withIds, IdAST.idOf, IdAST.canonicalI]
  | .add ts => by simp [AST.withIds, IdAST.idOf, IdAST.canonicalI]
  | .call f a => by simp [AST.withIds, IdAST.idOf, IdAST.canonicalI]
  | .diff v a => by simp [AST.withIds, IdAST.idOf, IdAST.canonicalI]

theorem preorderList_withIds_mem {P : IdAST → Prop} :
    ∀ ts : List AST, (∀ t ∈ ts, ∀ n ∈ (AST.withIds t).preorder, P n) →
      ∀ n ∈ IdAST.preorderList (AST.withIdsList ts), P n := by
  intro ts
  induction ts with
  | nil => intro _ n hn; simp [AST.withIdsList, IdAST.preorderList] at hn
  | cons t ts ih =>
    intro h n hn
    simp only [AST.withIdsList, IdAST.preorderList, List.mem_append] at hn
    rcases hn with hn | hn
    · exact h t (by simp) n hn
    · exact ih (fun u hu => h u (by simp [hu])) n hn

theorem preorder_withIds_ids :
    ∀ t : AST, ∀ n ∈ (t.withIds).preorder, n.idOf = djb2Hex n.canonicalI := by
  intro t
  induction t using AST.astIndOn with
  | hident nm =>
    intro n hn
    simp [AST.withIds, IdAST.preorder] at hn
    subst hn
    simp [IdAST.idOf, IdAST.canonicalI, AST.canonical]
  | hnumber v =>
    intro n hn
    simp [AST.withIds, IdAST.preorder] at hn
    subst hn
    simp [IdAST.idOf, IdAST.canonicalI, AST.canonical]
  | hpower b e ihb ihe =>
    intro n hn
    simp only [AST.withIds, IdAST.preorder, List.mem_cons, List.mem_append] at hn
    rcases hn with hn | hn | hn
    · subst hn; simp [IdAST.idOf, IdAST.canonicalI]
    · exact ihb n hn
    · exact ihe n hn
  | hadd ts ih =>
    intro n hn
    simp only [AST.withIds, IdAST.preorder, List.mem_cons] at hn
    rcases hn with hn | hn
    · subst hn; simp [IdAST.idOf, IdAST.canonicalI]
    · exact preorderList_withIds_mem ts ih n hn
  | hcall f a iha =>
    intro n hn
    simp only [AST.withIds, IdAST.preorder, List.mem_cons] at hn
    rcases hn with hn | hn
    · subst hn; simp [IdAST.idOf, IdAST.canonicalI]
    · exact iha n hn
  | hdiff v a ihv iha =>
    intro n hn
    simp only [AST.withIds, IdAST.preorder, List.mem_cons, List.mem_append] at hn
    rcases hn with hn | hn | hn
    · subst hn; simp [IdAST.idOf, IdAST.canonicalI]
    · exact ihv n hn
    · exact iha n hn

/-! ### Depth-first search against the preorder traversal -/

@[simp] theorem IdAST.idOf_ident (n i : String) : (IdAST.ident n i).idOf = i := rfl

@[simp] theorem IdAST.idOf_number (v i : String) : (IdAST.number v i).idOf = i := rfl

@[simp] theorem IdAST.idOf_power (b e : IdAST) (i : String) :
    (IdAST.power b e i).idOf = i := rfl

@[simp] theorem IdAST.idOf_add (ts : List IdAST) (i : String) :
    (IdAST.add ts i).idOf = i := rfl

@[simp] theorem IdAST.idOf_call (f : String) (a : IdAST) (i : String) :
    (IdAST.call f a i).idOf = i := rfl

@[simp] theorem IdAST.idOf_diff (v a : IdAST) (i : String) :
    (IdAST.diff v a i).idOf = i := rfl

theorem findInList_eq_find? (nid : String) :
    ∀ ts : List IdAST,
      (∀ t ∈ ts, t.findNodeById nid = t.preorder.find? (fun n => n.idOf == nid)) →
      IdAST.findInList ts nid =
        (IdAST.preorderList ts).find? (fun n => n.idOf == nid) := by
  intro ts
  induction ts with
  | nil => intro _; simp [IdAST.findInList, IdAST.preorderList]
  | cons t ts ih =>
    intro h
    have ht := h t (by simp)
    have hrest := ih (fun u hu => h u (by simp [hu]))
    simp only [IdAST.findInList, IdAST.preorderList, List.find?_append, ← ht, ← hrest]
    cases t.findNodeById nid <;> simp [Option.or]

theorem findNodeById_eq_find? :
    ∀ (t : IdAST) (nid : String),
      t.findNodeById nid = t.preorder.find? (fun n => n.idOf == nid) := by
  intro t
  induction t using IdAST.idAstIndOn with
  | hident nm i =>
    intro nid
    by_cases h : i = nid
    · subst h; simp [IdAST.findNodeById, IdAST.preorder, IdAST.idOf]
    · simp [IdAST.findNodeById, IdAST.preorder, IdAST.idOf, h]
  | hnumber v i =>
    intro nid
    by_cases h : i = nid
    · subst h; simp [IdAST.findNodeById, IdAST.preorder, IdAST.idOf]
    · simp [IdAST.findNodeById, IdAST.preorder, IdAST.idOf, h]
  | hpower b e i ihb ihe =>
    intro nid
    by_cases h : i = nid
    · subst h; simp [IdAST.findNodeById, IdAST.preorder, IdAST.idOf]
    · have hbeq : (i == nid) = false := by simp [h]
      simp only [IdAST.findNodeById, IdAST.preorder, IdAST.idOf_power, if_neg h,
        List.find?_cons, hbeq, List.find?_append, ihb nid, ihe nid]
      cases List.find? (fun n => n.idOf == nid) b.preorder <;> simp [Option.or]
  | hadd ts i ih =>
    intro nid
    by_cases h : i = nid
    · subst h; simp [IdAST.findNodeById, IdAST.preorder, IdAST.idOf]
    · have hbeq : (i == nid) = false := by simp [h]
      simp only [IdAST.findNodeById, IdAST.preorder, IdAST.idOf_add, if_neg h,
        List.find?_cons, hbeq]
      exact findInList_eq_find? nid ts (fun u hu => ih u hu nid)
  | hcall f a i iha =>
    intro nid
    by_cases h : i = nid
    · subst h; simp [IdAST.findNodeById, IdAST.preorder, IdAST.idOf]
    · have hbeq : (i == nid) = false := by simp [h]
      simp only [IdAST.findNodeById, IdAST.preorder, IdAST.idOf_call, if_neg h,
        List.find?_cons, hbeq]
      exact iha nid
  | hdiff v a i ihv iha =>
    intro nid
    by_cases h : i = nid
    · subst h; simp [IdAST.findNodeById, IdAST.preorder, IdAST.idOf]
    · have hbeq : (i == nid) = false := by simp [h]
      simp only [IdAST.findNodeById, IdAST.preorder, IdAST.idOf_diff, if_neg h,
        List.find?_cons, hbeq, List.find?_append, ihv nid, iha nid]
      cases List.find? (fun n => n.idOf == nid) v.preorder <;> simp [Option.or]

theorem djb2Step_lt (h : Nat) (c : Char) : djb2Step h c < 4294967296 := by
  rw [djb2Step_spec]
  exact Nat.mod_lt _ (by norm_num)

theorem foldl_djb2Step_lt :
    ∀ (cs : List Char) (a : Nat), a < 4294967296 →
      cs.foldl djb2Step a < 4294967296 := by
  intro cs
  induction cs with
  | nil => intro a ha; simpa using ha
  | cons c cs ih =>
    intro a _
    rw [List.foldl_cons]
    exact ih (djb2Step a c) (djb2Step_lt a c)

theorem djb2Acc_lt (cs : List Char) : djb2Acc cs < 4294967296 :=
  foldl_djb2Step_lt cs 5381 (by norm_num)

/-- C1: canonicalization and node-id assignment are deterministic pure
functions — equal trees get equal canonical strings and equal ids; the
djb2 accumulator of `_djb2_hex` is exactly `h = (h*33 + c) % 2^32` starting
from 5381, rendered by Python `format(_, 'x')`; that rendering emits only
lowercase hexadecimal digits; the accumulated hash is an unsigned 32-bit
value; every node of a `_with_ids` tree carries the
djb2 hash of its own canonical string; and the root id is the hash of the
original tree's canonical string. -/
theorem C1_node_ids_are_djb2_of_canonical :
    (∀ t u : AST, t = u →
      t.canonical = u.canonical ∧ (t.withIds).idOf = (u.withIds).idOf) ∧
    (∀ s : String,
      djb2Hex s =
        pyHexFormat (s.data.foldl (fun h c => (h * 33 + c.toNat) % 4294967296) 5381)) ∧
    (∀ n : Nat, ∀ c ∈ (pyHexFormat n).data, c ∈ hexAlphabet) ∧
    (∀ s : String, djb2Acc s.data < 4294967296) ∧
    (∀ t : AST, ∀ n ∈ (t.withIds).preorder, n.idOf = djb2Hex n.canonicalI) ∧
    (∀ t : AST, (t.withIds).idOf = djb2Hex t.canonical) := by
  refine ⟨?_, ?_, ?_, ?_, ?_, ?_⟩
  · intro t u h
    subst h
    exact ⟨rfl, rfl⟩
  · intro s
    rw [djb2Hex, djb2Acc_spec]
  · exact pyHexFormat_chars
  · exact fun s => djb2Acc_lt s.data
  · exact preorder_withIds_ids
  · intro t
    rw [idOf_withIds, canonicalI_withIds]

/-- Witness for C1 at the concrete tree `x^2`. -/
theorem C1_node_ids_are_djb2_of_canonical_witness :
    ((AST.power (.ident "x") (.number "2")).canonical =
        (AST.power (.ident "x") (.number "2")).canonical ∧
      ((AST.power (.ident "x") (.number "2")).withIds).idOf =
        ((AST.power (.ident "x") (.number "2")).withIds).idOf) ∧
    ((AST.power (.ident "x") (.number "2")).withIds).idOf =
      djb2Hex (((AST.power (.ident "x") (.number "2")).withIds).canonicalI) :=
  ⟨C1_node_ids_are_djb2_of_canonical.1 _ _ rfl,
    C1_node_ids_are_djb2_of_canonical.2.2.2.2.1 (AST.power (.ident "x") (.number "2"))
      ((AST.power (.ident "x") (.number "2")).withIds)
      (by simp [AST.withIds, IdAST.preorder])⟩

/-- C2: `_find_node_by_id` is depth-first search — it returns the first node
in preorder whose id equals the query, `none` exactly when no node carries
the id; and the `rewriteOptions` target selection falls back to the whole
tree on `none` (and uses the found subtree otherwise). -/
theorem C2_find_by_id_dfs_and_fallback :
    (∀ (t : IdAST) (nid : String),
      t.findNodeById nid = t.preorder.find? (fun n => n.idOf == nid)) ∧
    (∀ (t : IdAST) (nid : String),
      (t.findNodeById nid = none ↔ ∀ n ∈ t.preorder, n.idOf ≠ nid)) ∧
    (∀ (t : IdAST) (nid : String),
      t.findNodeById nid = none → rewriteTarget t nid = t) ∧
    (∀ (t : IdAST) (nid : String) (n : IdAST),
      t.findNodeById nid = some n → rewriteTarget t nid = n) := by
  refine ⟨findNodeById_eq_find?, ?_, ?_, ?_⟩
  · intro t nid
    rw [findNodeById_eq_find?, List.find?_eq_none]
    simp
  · intro t nid h
    simp [rewriteTarget, h]
  · intro t nid n h
    simp [rewriteTarget, h]

/-- Witness for C2: an id absent from a concrete two-node tree falls back to
the whole tree. -/
theorem C2_find_by_id_dfs_and_fallback_witness :
    (IdAST.power (.ident "a" "ha") (.ident "b" "hb") "hr").findNodeById "zz" = none ∧
    rewriteTarget (IdAST.power (.ident "a" "ha") (.ident "b" "hb") "hr") "zz" =
      IdAST.power (.ident "a" "ha") (.ident "b" "hb") "hr" :=
  ⟨rfl, C2_find_by_id_dfs_and_fallback.2.2.1 _ "zz" rfl⟩

/-- C9: id assignment changes nothing but ids — erasing the `id` fields of
`_with_ids t` recovers `t` exactly (so kinds, names, literals, function
names and child order are all preserved). -/
theorem C9_withIds_erases_to_input : ∀ t : AST, (t.withIds).eraseIds = t :=
  eraseIds_withIds

/-! ### Rule compilation: wildcard substitution with the evaluating rebuild -/

theorem lookupExpr_symMap (names : List String) (n : String) :
    lookupExpr (names.map fun m => (SymExpr.sym m, SymExpr.wild m)) (SymExpr.sym n) =
      if n ∈ names then some (SymExpr.wild n) else none := by
  induction names with
  | nil => simp [lookupExpr]
  | cons a names ih =>
    by_cases h : a = n
    · subst h
      simp [lookupExpr, SymExpr.beq_iff]
    · have hne : ¬ n = a := fun e => h e.symm
      simp [lookupExpr, SymExpr.beq_iff, h, hne, ih]

theorem lookupExpr_symMap_nonSym (names : List String) (k : SymExpr)
    (hk : k.isSymbol = false) :
    lookupExpr (names.map fun m => (SymExpr.sym m, SymExpr.wild m)) k = none := by
  induction names with
  | nil => simp [lookupExpr]
  | cons a names ih =>
    have hfalse : SymExpr.beq (SymExpr.sym a) k = false := by
      cases k <;> simp [SymExpr.beq, SymExpr.isSymbol] at hk ⊢
    simp [lookupExpr, hfalse, ih]

theorem xreplaceListAux_symMap (ev : SymExpr → SymExpr) (names : List String) :
    ∀ xs : List SymExpr,
      (∀ x ∈ xs,
        SymExpr.xreplaceAux ev (names.map fun m => (SymExpr.sym m, SymExpr.wild m)) x =
          SymExpr.wildSubstEval ev names x) →
      SymExpr.xreplaceListAux ev (names.map fun m => (SymExpr.sym m, SymExpr.wild m)) xs =
        SymExpr.wildSubstEvalList ev names xs := by
  intro xs
  induction xs with
  | nil => intro _; simp [SymExpr.xreplaceListAux, SymExpr.wildSubstEvalList]
  | cons x xs ih =>
    intro h
    have hx := h x (by simp)
    have hxs := ih (fun u hu => h u (by simp [hu]))
    simp [SymExpr.xreplaceListAux, SymExpr.wildSubstEvalList, hx, hxs]

theorem xreplaceAux_symMap (ev : SymExpr → SymExpr) (names : List String) :
    ∀ e : SymExpr,
      SymExpr.xreplaceAux ev (names.map fun m => (SymExpr.sym m, SymExpr.wild m)) e =
        SymExpr.wildSubstEval ev names e := by
  intro e
  induction e using SymExpr.symIndOn with
  | hsym n =>
    by_cases hn : n ∈ names <;>
      simp [SymExpr.xreplaceAux, lookupExpr_symMap, hn, SymExpr.wildSubstEval]
  | hwild n =>
    simp [SymExpr.xreplaceAux, lookupExpr_symMap_nonSym names (SymExpr.wild n) rfl,
      SymExpr.wildSubstEval]
  | hint n =>
    simp [SymExpr.xreplaceAux, lookupExpr_symMap_nonSym names (SymExpr.intLit n) rfl,
      SymExpr.wildSubstEval]
  | hrat p q =>
    simp [SymExpr.xreplaceAux, lookupExpr_symMap_nonSym names (SymExpr.ratLit p q) rfl,
      SymExpr.wildSubstEval]
  | himag =>
    simp [SymExpr.xreplaceAux, lookupExpr_symMap_nonSym names SymExpr.imagUnit rfl,
      SymExpr.wildSubstEval]
  | hadd xs ih =>
    have hl := xreplaceListAux_symMap ev names xs ih
    simp [SymExpr.xreplaceAux, lookupExpr_symMap_nonSym names (SymExpr.add xs) rfl,
      SymExpr.wildSubstEval, hl]
  | hmul xs ih =>
    have hl := xreplaceListAux_symMap ev names xs ih
    simp [SymExpr.xreplaceAux, lookupExpr_symMap_nonSym names (SymExpr.mul xs) rfl,
      SymExpr.wildSubstEval, hl]
  | hpow a b iha ihb =>
    simp [SymExpr.xreplaceAux, lookupExpr_symMap_nonSym names (SymExpr.pow a b) rfl,
      SymExpr.wildSubstEval, iha, ihb]
  | hfn n a iha =>
    simp [SymExpr.xreplaceAux, lookupExpr_symMap_nonSym names (SymExpr.fn n a) rfl,
      SymExpr.wildSubstEval, iha]
  | hundef n a iha =>
    simp [SymExpr.xreplaceAux, lookupExpr_symMap_nonSym names (SymExpr.undef n a) rfl,
      SymExpr.wildSubstEval, iha]
  | hderiv a v iha ihv =>
    simp [SymExpr.xreplaceAux, lookupExpr_symMap_nonSym names (SymExpr.deriv a v) rfl,
      SymExpr.wildSubstEval, iha, ihv]

theorem wildSubstEvalList_inert (ev : SymExpr → SymExpr) (names : List String) :
    ∀ xs : List SymExpr,
      (∀ x ∈ xs, (∀ n ∈ x.freeSyms, n ∈ names) →
        (SymExpr.wildSubstEval ev names x).1 = x.toWildAll ∧
          ((SymExpr.wildSubstEval ev names x).2 = false → x.toWildAll = x)) →
      (∀ n ∈ SymExpr.freeSymsList xs, n ∈ names) →
      (SymExpr.wildSubstEvalList ev names xs).1 = SymExpr.toWildAllList xs ∧
        ((SymExpr.wildSubstEvalList ev names xs).2 = false →
          SymExpr.toWildAllList xs = xs) := by
  intro xs
  induction xs with
  | nil =>
    intro _ _
    simp [SymExpr.wildSubstEvalList, SymExpr.toWildAllList]
  | cons x xs ih =>
    intro hpt h
    have hx := hpt x (by simp)
      (fun n hn => h n (by simp [SymExpr.freeSymsList, List.mem_append, hn]))
    have hxs := ih (fun u hu => hpt u (by simp [hu]))
      (fun n hn => h n (by simp [SymExpr.freeSymsList, List.mem_append, hn]))
    refine ⟨?_, ?_⟩
    · simp [SymExpr.wildSubstEvalList, SymExpr.toWildAllList, hx.1, hxs.1]
    · intro hflag
      simp only [SymExpr.wildSubstEvalList, Bool.or_eq_false_iff] at hflag
      simp [SymExpr.toWildAllList, hx.2 hflag.1, hxs.2 hflag.2]

theorem wildSubstEval_inert (ev : SymExpr → SymExpr) (hid : ∀ x, ev x = x)
    (names : List String) :
    ∀ e : SymExpr, (∀ n ∈ e.freeSyms, n ∈ names) →
      (SymExpr.wildSubstEval ev names e).1 = e.toWildAll ∧
        ((SymExpr.wildSubstEval ev names e).2 = false → e.toWildAll = e) := by
  intro e
  induction e using SymExpr.symIndOn with
  | hsym n =>
    intro h
    have hn : n ∈ names := h n (by simp [SymExpr.freeSyms])
    simp [SymExpr.wildSubstEval, hn, SymExpr.toWildAll]
  | hwild n => intro _; simp [SymExpr.wildSubstEval, SymExpr.toWildAll]
  | hint n => intro _; simp [SymExpr.wildSubstEval, SymExpr.toWildAll]
  | hrat p q => intro _; simp [SymExpr.wildSubstEval, SymExpr.toWildAll]
  | himag => intro _; simp [SymExpr.wildSubstEval, SymExpr.toWildAll]
  | hadd xs ih =>
    intro h
    have hl := wildSubstEvalList_inert ev names xs ih
      (fun n hn => h n (by simpa [SymExpr.freeSyms] using hn))
    by_cases hc : (SymExpr.wildSubstEvalList ev names xs).2 = true
    · simp [SymExpr.wildSubstEval, hc, hid, SymExpr.toWildAll, hl.1]
    · rw [Bool.not_eq_true] at hc
      simp [SymExpr.wildSubstEval, hc, SymExpr.toWildAll, hl.2 hc]
  | hmul xs ih =>
    intro h
    have hl := wildSubstEvalList_inert ev names xs ih
      (fun n hn => h n (by simpa [SymExpr.freeSyms] using hn))
    by_cases hc : (SymExpr.wildSubstEvalList ev names xs).2 = true
    · simp [SymExpr.wildSubstEval, hc, hid, SymExpr.toWildAll, hl.1]
    · rw [Bool.not_eq_true] at hc
      simp [SymExpr.wildSubstEval, hc, SymExpr.toWildAll, hl.2 hc]
  | hpow a b iha ihb =>
    intro h
    have ha := iha (fun n hn => h n (by simp [SymExpr.freeSyms, List.mem_append, hn]))
    have hb := ihb (fun n hn => h n (by simp [SymExpr.freeSyms, List.mem_append, hn]))
    by_cases hc : ((SymExpr.wildSubstEval ev names a).2 ||
        (SymExpr.wildSubstEval ev names b).2) = true
    · simp [SymExpr.wildSubstEval, hc, hid, SymExpr.toWildAll, ha.1, hb.1]
    · rw [Bool.or_eq_true] at hc
      have hca : (SymExpr.wildSubstEval ev names a).2 = false :=
        Bool.eq_false_iff.mpr (fun hh => hc (Or.inl hh))
      have hcb : (SymExpr.wildSubstEval ev names b).2 = false :=
        Bool.eq_false_iff.mpr (fun hh => hc (Or.inr hh))
      simp [SymExpr.wildSubstEval, hca, hcb, SymExpr.toWildAll, ha.2 hca, hb.2 hcb]
  | hfn n a iha =>
    intro h
    have ha := iha (fun m hm => h m (by simpa [SymExpr.freeSyms] using hm))
    by_cases hc : (SymExpr.wildSubstEval ev names a).2 = true
    · simp [SymExpr.wildSubstEval, hc, hid, SymExpr.toWildAll, ha.1]
    · rw [Bool.not_eq_true] at hc
      simp [SymExpr.wildSubstEval, hc, SymExpr.toWildAll, ha.2 hc]
  | hundef n a iha =>
    intro h
    have ha := iha (fun m hm => h m (by simpa [SymExpr.freeSyms] using hm))
    by_cases hc : (SymExpr.wildSubstEval ev names a).2 = true
    · simp [SymExpr.wildSubstEval, hc, hid, SymExpr.toWildAll, ha.1]
    · rw [Bool.not_eq_true] at hc
      simp [SymExpr.wildSubstEval, hc, SymExpr.toWildAll, ha.2 hc]
  | hderiv a v iha ihv =>
    intro h
    have ha := iha (fun n hn => h n (by simp [SymExpr.freeSyms, List.mem_append, hn]))
    have hv := ihv (fun n hn => h n (by simp [SymExpr.freeSyms, List.mem_append, hn]))
    by_cases hc : ((SymExpr.wildSubstEval ev names a).2 ||
        (SymExpr.wildSubstEval ev names v).2) = true
    · simp [SymExpr.wildSubstEval, hc, hid, SymExpr.toWildAll, ha.1, hv.1]
    · rw [Bool.or_eq_true] at hc
      have hca : (SymExpr.wildSubstEval ev names a).2 = false :=
        Bool.eq_false_iff.mpr (fun hh => hc (Or.inl hh))
      have hcv : (SymExpr.wildSubstEval ev names v).2 = false :=
        Bool.eq_false_iff.mpr (fun hh => hc (Or.inr hh))
      simp [SymExpr.wildSubstEval, hca, hcv, SymExpr.toWildAll, ha.2 hca, hv.2 hcv]

/-- Counterexample for C6 as stated: compiling the repository's own
`combine_like_terms_add` line (`a + a rewrite 2*a`), whose left side parses
unevaluated as `Add(a, a)`, the evaluating rebuild inside `xreplace`
collapses the substituted side `Add(Wild(a), Wild(a))` to `Mul(2, Wild(a))`:
the compiled left pattern is not the parsed side with every variable
replaced by the wildcard of the same name. -/
theorem C6_counterexample_pattern_is_evaluated_not_substituted :
    combRule.left_template = SymExpr.add [.sym "a", .sym "a"] ∧
    combRule.left_pattern = SymExpr.mul [.intLit 2, .wild "a"] ∧
    SymExpr.toWildAll (SymExpr.add [.sym "a", .sym "a"]) =
      SymExpr.add [.wild "a", .wild "a"] ∧
    combRule.left_pattern ≠ SymExpr.toWildAll combRule.left_template := by
  refine ⟨rfl, rfl, rfl, ?_⟩
  decide

/-- C6 (amended): for every compiled rule, the wildcard set is exactly the
union of the free-variable names of the two parsed sides and the templates
are the unmodified parsed sides; each pattern is the corresponding side with
every variable replaced by the same-named wildcard, where every node
containing a replacement is rebuilt through the engine's default evaluation,
bottom-up — in particular, when that evaluation is inert the pattern is
exactly the wildcard-substituted side. -/
theorem C6_build_rule_invariants :
    ∀ (ev : SymExpr → SymExpr) (l r : SymExpr) (ls rs nm lb : String),
      (∀ n : String, n ∈ (buildRuleFromExprs ev l r ls rs nm lb).wilds ↔
        (n ∈ l.freeSyms ∨ n ∈ r.freeSyms)) ∧
      (buildRuleFromExprs ev l r ls rs nm lb).left_pattern =
        (SymExpr.wildSubstEval ev ((l.freeSyms ++ r.freeSyms).dedup) l).1 ∧
      (buildRuleFromExprs ev l r ls rs nm lb).right_pattern =
        (SymExpr.wildSubstEval ev ((l.freeSyms ++ r.freeSyms).dedup) r).1 ∧
      (buildRuleFromExprs ev l r ls rs nm lb).left_template = l ∧
      (buildRuleFromExprs ev l r ls rs nm lb).right_template = r ∧
      ((∀ x, ev x = x) →
        (buildRuleFromExprs ev l r ls rs nm lb).left_pattern = l.toWildAll ∧
        (buildRuleFromExprs ev l r ls rs nm lb).right_pattern = r.toWildAll) := by
  intro ev l r ls rs nm lb
  refine ⟨?_, ?_, ?_, rfl, rfl, ?_⟩
  · intro n
    simp [buildRuleFromExprs, List.mem_dedup, List.mem_append]
  · exact congrArg Prod.fst (xreplaceAux_symMap ev ((l.freeSyms ++ r.freeSyms).dedup) l)
  · exact congrArg Prod.fst (xreplaceAux_symMap ev ((l.freeSyms ++ r.freeSyms).dedup) r)
  · intro hid
    refine ⟨?_, ?_⟩
    · exact (congrArg Prod.fst
        (xreplaceAux_symMap ev ((l.freeSyms ++ r.freeSyms).dedup) l)).trans
        (wildSubstEval_inert ev hid ((l.freeSyms ++ r.freeSyms).dedup) l
          (fun n hn => by simp [List.mem_dedup, List.mem_append, hn])).1
    · exact (congrArg Prod.fst
        (xreplaceAux_symMap ev ((l.freeSyms ++ r.freeSyms).dedup) r)).trans
        (wildSubstEval_inert ev hid ((l.freeSyms ++ r.freeSyms).dedup) r
          (fun n hn => by simp [List.mem_dedup, List.mem_append, hn])).1

/-- Witness for the amended C6: under an inert engine evaluation, the
compiled left pattern of the `conjugate_exp_i_theta` rule is exactly its
parsed left side with the variable `theta` replaced by the wildcard
`theta`. -/
theorem C6_build_rule_invariants_witness :
    conjExpRule.left_pattern =
      SymExpr.toWildAll (.fn "conjugate" (.fn "exp" (.mul [.imagUnit, .sym "theta"]))) :=
  ((C6_build_rule_invariants (fun e => e)
      (.fn "conjugate" (.fn "exp" (.mul [.imagUnit, .sym "theta"])))
      (.fn "exp" (.mul [.intLit (-1), .imagUnit, .sym "theta"]))
      "conjugate(exp(I*theta))" "exp(-I*theta)"
      "conjugate_exp_i_theta" "Conjugate of a unit-modulus exponential").2.2.2.2.2
    (fun x => rfl)).1

/-! ### Rule-file loading: totality and per-line isolation -/

theorem loadDir_missing (sideParse : String → Option SymExpr) (ev : SymExpr → SymExpr)
    (files : List (Option String)) :
    loadRewriteRulesFromDir sideParse ev false files = [] := by
  rw [loadRewriteRulesFromDir.eq_def]
  simp

theorem loadDir_nil (sideParse : String → Option SymExpr) (ev : SymExpr → SymExpr) :
    loadRewriteRulesFromDir sideParse ev true [] = [] := by
  rw [loadRewriteRulesFromDir.eq_def]
  simp

theorem loadDir_cons (sideParse : String → Option SymExpr) (ev : SymExpr → SymExpr)
    (f : Option String) (rest : List (Option String)) :
    loadRewriteRulesFromDir sideParse ev true (f :: rest) =
      (match f with
       | none => []
       | some text => rulesOfText sideParse ev text) ++
        loadRewriteRulesFromDir sideParse ev true rest := by
  rw [loadRewriteRulesFromDir.eq_def]
  simp

theorem loadDir_unreadable_file (sideParse : String → Option SymExpr)
    (ev : SymExpr → SymExpr) (fs1 fs2 : List (Option String)) :
    loadRewriteRulesFromDir sideParse ev true (fs1 ++ none :: fs2) =
      loadRewriteRulesFromDir sideParse ev true fs1 ++
        loadRewriteRulesFromDir sideParse ev true fs2 := by
  induction fs1 with
  | nil =>
    rw [List.nil_append, loadDir_cons, loadDir_nil]
  | cons f fs1 ih =>
    rw [List.cons_append, loadDir_cons, ih, loadDir_cons, List.append_assoc]

theorem rulesOfLines_cons_skip (sideParse : String → Option SymExpr)
    (ev : SymExpr → SymExpr) (raw : String) (rest : List String)
    (h : parseRuleLine sideParse ev (pyStrip raw) = none) :
    rulesOfLines sideParse ev (raw :: rest) = rulesOfLines sideParse ev rest := by
  simp only [rulesOfLines]
  by_cases hb : (decide (pyStrip raw = "") || pyStartsWith (pyStrip raw) "#") = true
  · simp [hb]
  · simp [hb, h]

theorem rulesOfLines_cons (sideParse : String → Option SymExpr)
    (ev : SymExpr → SymExpr) (raw : String) (rest : List String) :
    rulesOfLines sideParse ev (raw :: rest) =
      (if (decide (pyStrip raw = "") || pyStartsWith (pyStrip raw) "#") = true then
        rulesOfLines sideParse ev rest
      else
        match parseRuleLine sideParse ev (pyStrip raw) with
        | some r => r :: rulesOfLines sideParse ev rest
        | none => rulesOfLines sideParse ev rest) := by
  simp only [rulesOfLines]

theorem rulesOfLines_bad_line (sideParse : String → Option SymExpr)
    (ev : SymExpr → SymExpr) (l1 l2 : List String) (bad : String)
    (h : parseRuleLine sideParse ev (pyStrip bad) = none) :
    rulesOfLines sideParse ev (l1 ++ bad :: l2) =
      rulesOfLines sideParse ev l1 ++ rulesOfLines sideParse ev l2 := by
  induction l1 with
  | nil =>
    rw [List.nil_append, rulesOfLines_cons_skip sideParse ev bad l2 h]
    simp [rulesOfLines]
  | cons raw l1 ih =>
    rw [List.cons_append, rulesOfLines_cons, ih, rulesOfLines_cons]
    by_cases hb : (decide (pyStrip raw = "") || pyStartsWith (pyStrip raw) "#") = true
    · simp [hb]
    · cases hp : parseRuleLine sideParse ev (pyStrip raw) <;> simp [hb, hp]

theorem parseRuleLine_no_single_rewrite (sideParse : String → Option SymExpr)
    (ev : SymExpr → SymExpr) (line : String)
    (h : (pySplit "rewrite" ((pySplit "#" line).headD line)).length ≠ 2) :
    parseRuleLine sideParse ev line = none := by
  rw [parseRuleLine]
  cases hc : pySplit "rewrite" ((pySplit "#" line).headD line) with
  | nil => simp
  | cons a tail =>
    cases tail with
    | nil => simp
    | cons b tail2 =>
      cases tail2 with
      | nil => exact absurd (by rw [hc]; rfl) h
      | cons c tail3 => simp

theorem parseRuleLine_side_fails (sideParse : String → Option SymExpr)
    (ev : SymExpr → SymExpr) (line lp rp : String)
    (hc : pySplit "rewrite" ((pySplit "#" line).headD line) = [lp, rp])
    (h : sideParse (pyStrip lp) = none ∨ sideParse (pyStrip rp) = none) :
    parseRuleLine sideParse ev line = none := by
  rw [parseRuleLine, hc]
  rcases h with h | h
  · simp only [buildRule, h]
    all_goals first
    | rfl
    | (cases sideParse (pyStrip rp) <;> rfl)
  · simp only [buildRule, h]
    all_goals first
    | rfl
    | (cases sideParse (pyStrip lp) <;> rfl)

/-- C5: rule-catalog loading is total and isolates failures — it is a total
function of the directory contents; a missing directory loads the empty
list; an unreadable file contributes nothing while every other file still
loads; a bad line (one that compiles to no rule, in particular one without
exactly one `rewrite` keyword or whose sides fail to parse) contributes no
rule while all other lines of the same file still load. -/
theorem C5_rule_loading_total_and_isolated (sideParse : String → Option SymExpr)
    (ev : SymExpr → SymExpr) :
    (∀ files : List (Option String),
      loadRewriteRulesFromDir sideParse ev false files = []) ∧
    (∀ fs1 fs2 : List (Option String),
      loadRewriteRulesFromDir sideParse ev true (fs1 ++ none :: fs2) =
        loadRewriteRulesFromDir sideParse ev true fs1 ++
          loadRewriteRulesFromDir sideParse ev true fs2) ∧
    (∀ (l1 l2 : List String) (bad : String),
      parseRuleLine sideParse ev (pyStrip bad) = none →
      rulesOfLines sideParse ev (l1 ++ bad :: l2) =
        rulesOfLines sideParse ev l1 ++ rulesOfLines sideParse ev l2) ∧
    (∀ line : String,
      (pySplit "rewrite" ((pySplit "#" line).headD line)).length ≠ 2 →
      parseRuleLine sideParse ev line = none) ∧
    (∀ line lp rp : String,
      pySplit "rewrite" ((pySplit "#" line).headD line) = [lp, rp] →
      (sideParse (pyStrip lp) = none ∨ sideParse (pyStrip rp) = none) →
      parseRuleLine sideParse ev line = none) :=
  ⟨loadDir_missing sideParse ev, loadDir_unreadable_file sideParse ev,
    rulesOfLines_bad_line sideParse ev, parseRuleLine_no_single_rewrite sideParse ev,
    parseRuleLine_side_fails sideParse ev⟩

/-- Witness for C5 at a concrete two-file directory with a malformed line. -/
theorem C5_rule_loading_total_and_isolated_witness :
    (loadRewriteRulesFromDir demoSideParse combEval false [some "a rewrite a"] = []) ∧
    (loadRewriteRulesFromDir demoSideParse combEval true
        ([some "a rewrite a"] ++ none :: [some "a rewrite a"]) =
      loadRewriteRulesFromDir demoSideParse combEval true [some "a rewrite a"] ++
        loadRewriteRulesFromDir demoSideParse combEval true [some "a rewrite a"]) ∧
    (rulesOfLines demoSideParse combEval
        (["a rewrite a"] ++ "nokeyword" :: ["a rewrite a"]) =
      rulesOfLines demoSideParse combEval ["a rewrite a"] ++
        rulesOfLines demoSideParse combEval ["a rewrite a"]) ∧
    (parseRuleLine demoSideParse combEval "oops rewrite b rewrite c" = none) ∧
    (parseRuleLine demoSideParse combEval "zz rewrite ww" = none) :=
  ⟨(C5_rule_loading_total_and_isolated demoSideParse combEval).1 _,
    (C5_rule_loading_total_and_isolated demoSideParse combEval).2.1 _ _,
    (C5_rule_loading_total_and_isolated demoSideParse combEval).2.2.1 _ _ "nokeyword" rfl,
    (C5_rule_loading_total_and_isolated demoSideParse combEval).2.2.2.1
      "oops rewrite b rewrite c" (by decide),
    (C5_rule_loading_total_and_isolated demoSideParse combEval).2.2.2.2
      "zz rewrite ww" "zz " " ww" rfl (Or.inl rfl)⟩

/-! ### The matching loop: no-op filtering and assumption gating -/

theorem emit_branch_inv {x expr : SymExpr} {o : RewriteOption}
    {idv lbl rn : String} {eng : Engine}
    (h : (if ¬ ((x == expr) = true) then
            some { id := idv, label := lbl, ruleName := rn,
                   replacementContentMathML := (eng.render x).1,
                   replacementPresentationMathML := (eng.render x).2 }
          else none) = some o) :
    x ≠ expr ∧ o = { id := idv, label := lbl, ruleName := rn,
                     replacementContentMathML := (eng.render x).1,
                     replacementPresentationMathML := (eng.render x).2 } := by
  split at h
  · rename_i hs
    exact ⟨fun he => hs (by rw [he]; exact LawfulBEq.rfl), (Option.some.inj h).symm⟩
  · exact absurd h (by simp)

theorem forwardOption_some_inv {eng : Engine} {asm : List (String × String)}
    {expr : SymExpr} {r : Rule} {opt : RewriteOption}
    (h : forwardOption eng asm expr r = some opt) :
    ∃ m, eng.matchExpr expr r.left_pattern = some m ∧ ruleAllowed asm r m = true ∧
      ∃ e, e ≠ expr ∧
        opt = { id := r.name ++ "_forward", label := r.label, ruleName := r.name,
                replacementContentMathML := (eng.render e).1,
                replacementPresentationMathML := (eng.render e).2 } := by
  cases hm : eng.matchExpr expr r.left_pattern with
  | none => simp [forwardOption, hm] at h
  | some m =>
    refine ⟨m, rfl, ?_⟩
    simp only [forwardOption, hm] at h
    split at h
    · rename_i ha
      split at h
      · exact absurd h (by simp)
      · split at h
        · obtain ⟨hne, rfl⟩ := emit_branch_inv h
          exact ⟨ha, _, hne, rfl⟩
        · obtain ⟨hne, rfl⟩ := emit_branch_inv h
          exact ⟨ha, _, hne, rfl⟩
    · exact absurd h (by simp)

theorem reverseOption_some_inv {eng : Engine} {asm : List (String × String)}
    {expr : SymExpr} {r : Rule} {opt : RewriteOption}
    (h : reverseOption eng asm expr r = some opt) :
    ∃ m, eng.matchExpr expr r.right_pattern = some m ∧ ruleAllowed asm r m = true ∧
      ∃ e, (e ≠ expr ∨ r.name = "combine_like_terms_add") ∧
        opt = { id := r.name ++ "_reverse", label := r.label ++ " (reverse)",
                ruleName := r.name,
                replacementContentMathML := (eng.render e).1,
                replacementPresentationMathML := (eng.render e).2 } := by
  cases hm : eng.matchExpr expr r.right_pattern with
  | none => simp [reverseOption, hm] at h
  | some m =>
    refine ⟨m, rfl, ?_⟩
    simp only [reverseOption, hm] at h
    split at h
    · rename_i ha
      split at h
      · exact absurd h (by simp)
      · split at h
        · split at h
          · rename_i hcond
            obtain rfl := (Option.some.inj h).symm
            refine ⟨ha, _, ?_, rfl⟩
            rcases (Bool.or_eq_true _ _).mp hcond with hc | hc
            · exact Or.inl (fun he =>
                (of_decide_eq_true hc) (by rw [he]; exact LawfulBEq.rfl))
            · exact Or.inr (of_decide_eq_true hc)
          · exact absurd h (by simp)
        · split at h
          · rename_i hcond
            obtain rfl := (Option.some.inj h).symm
            refine ⟨ha, _, ?_, rfl⟩
            rcases (Bool.or_eq_true _ _).mp hcond with hc | hc
            · exact Or.inl (fun he =>
                (of_decide_eq_true hc) (by rw [he]; exact LawfulBEq.rfl))
            · exact Or.inr (of_decide_eq_true hc)
          · exact absurd h (by simp)
    · exact absurd h (by simp)

theorem mem_genLoadedOptions {eng : Engine} {asm : List (String × String)}
    {expr : SymExpr} {opt : RewriteOption} :
    ∀ {rules : List Rule},
      opt ∈ genLoadedOptions eng asm rules expr ↔
        ∃ r ∈ rules, forwardOption eng asm expr r = some opt ∨
          reverseOption eng asm expr r = some opt := by
  intro rules
  induction rules with
  | nil => simp [genLoadedOptions]
  | cons r rest ih =>
    simp only [genLoadedOptions, List.mem_append, ih, Option.mem_toList,
      Option.mem_def, List.mem_cons]
    constructor
    · rintro ((hf | hr) | ⟨u, hu, hor⟩)
      · exact ⟨r, Or.inl rfl, Or.inl hf⟩
      · exact ⟨r, Or.inl rfl, Or.inr hr⟩
      · exact ⟨u, Or.inr hu, hor⟩
    · rintro ⟨u, (rfl | hu), hor⟩
      · exact Or.inl (by simpa using hor)
      · exact Or.inr ⟨u, hu, hor⟩

theorem ruleAllowed_empty_blocks_gated {r : Rule} {m : List (String × SymExpr)}
    (h : ruleAllowed [] r m = true) : r.name ≠ "conjugate_exp_i_theta" := by
  intro hn
  rw [ruleAllowed] at h
  simp [hn] at h

theorem reverseOption_combine_emits {eng : Engine} {asm : List (String × String)}
    {expr : SymExpr} {r : Rule} {m : List (String × SymExpr)}
    (hname : r.name = "combine_like_terms_add")
    (hm : eng.matchExpr expr r.right_pattern = some m)
    (ha : ruleAllowed asm r m = true) :
    reverseOption eng asm expr r =
      some { id := "combine_like_terms_add_reverse",
             label := r.label ++ " (reverse)",
             ruleName := "combine_like_terms_add",
             replacementContentMathML :=
               (eng.render (applyMapping eng.evalNode r.left_template r.wilds m)).1,
             replacementPresentationMathML :=
               (eng.render (applyMapping eng.evalNode r.left_template r.wilds m)).2 } := by
  have hncs : ¬ r.name = "complete_square" := by rw [hname]; decide
  simp only [reverseOption, hm, ha, if_true, hname, hncs]
  simp

/-- C3: through the HTTP operation the assumptions can never reach the rule
gate — `RewriteOptionsRequest` (schemas.py lines 115-117) has no
`assumptions` field, so `getattr(request, 'assumptions', None)` at main.py
line 1183 is always `None` (the empty map here) and no emitted option can
ever carry the gated rule name, whatever the engine, rules and target; in
particular at the claim's own input the option list with the
endpoint-supplied empty assumptions is empty, while the same call with the
assumptions map `{theta: real}` (which the claim, the spec and the repo's
own test expect to arrive) does produce the `conjugate_exp_i_theta`
option. -/
theorem C3_endpoint_drops_assumptions_suppressing_gated_rule :
    (∀ (eng : Engine) (rules : List Rule) (expr : SymExpr),
      ∀ opt ∈ genLoadedOptions eng [] rules expr,
        opt.ruleName ≠ "conjugate_exp_i_theta") ∧
    (genLoadedOptions conjEngine [("theta", "real")] [conjExpRule] conjExpr =
      [{ id := "conjugate_exp_i_theta_forward",
         label := "Conjugate of a unit-modulus exponential",
         ruleName := "conjugate_exp_i_theta",
         replacementContentMathML := "content",
         replacementPresentationMathML := "presentation" }]) ∧
    (genLoadedOptions conjEngine [] [conjExpRule] conjExpr = []) := by
  refine ⟨?_, rfl, rfl⟩
  intro eng rules expr opt hopt
  rw [mem_genLoadedOptions] at hopt
  obtain ⟨r, _, hor | hor⟩ := hopt
  · obtain ⟨m, _, ha, e, _, rfl⟩ := forwardOption_some_inv hor
    exact ruleAllowed_empty_blocks_gated ha
  · obtain ⟨m, _, ha, e, _, rfl⟩ := reverseOption_some_inv hor
    exact ruleAllowed_empty_blocks_gated ha

/-- Counterexample for C4 as stated: at the target `2*a`, the
`combine_like_terms_add` rule's forward match succeeds (`a ↦ a`), is
allowed, and instantiates the right template to a replacement structurally
identical to the input — yet no forward option is emitted (the option list
holds only the reverse option), so it is false that options from this rule
are emitted even when the instantiated replacement is structurally
identical to the input. -/
theorem C4_counterexample_combine_forward_identical_dropped :
    combRule.name = "combine_like_terms_add" ∧
    combEngine.matchExpr combExpr combRule.left_pattern =
      some [("a", SymExpr.sym "a")] ∧
    ruleAllowed [] combRule [("a", SymExpr.sym "a")] = true ∧
    applyMapping combEngine.evalNode combRule.right_template combRule.wilds
      [("a", SymExpr.sym "a")] = combExpr ∧
    forwardOption combEngine [] combExpr combRule = none ∧
    (genLoadedOptions combEngine [] [combRule] combExpr).all
      (fun opt => opt.id != "combine_like_terms_add_forward") = true := by
  decide

/-- C4 (amended): no emitted option of the catalog matcher has a replacement
structurally identical to the input, with the sole exception of
reverse-direction options of the `combine_like_terms_add` rule, which are
emitted even on structural identity; forward-direction candidates of that
rule are filtered like every other rule's. -/
theorem C4_no_identical_replacement_except_combine_reverse :
    ∀ (eng : Engine) (asm : List (String × String)) (rules : List Rule)
      (expr : SymExpr),
      (∀ opt ∈ genLoadedOptions eng asm rules expr,
        opt.id ≠ "combine_like_terms_add_reverse" →
        ∃ e, e ≠ expr ∧ opt.replacementContentMathML = (eng.render e).1 ∧
          opt.replacementPresentationMathML = (eng.render e).2) ∧
      (∀ r ∈ rules, ∀ m, r.name = "combine_like_terms_add" →
        eng.matchExpr expr r.right_pattern = some m →
        ruleAllowed asm r m = true →
        { id := "combine_like_terms_add_reverse",
          label := r.label ++ " (reverse)",
          ruleName := "combine_like_terms_add",
          replacementContentMathML :=
            (eng.render (applyMapping eng.evalNode r.left_template r.wilds m)).1,
          replacementPresentationMathML :=
            (eng.render (applyMapping eng.evalNode r.left_template r.wilds m)).2 } ∈
          genLoadedOptions eng asm rules expr) := by
  intro eng asm rules expr
  constructor
  · intro opt hopt hid
    rw [mem_genLoadedOptions] at hopt
    obtain ⟨r, _, hor | hor⟩ := hopt
    · obtain ⟨m, _, _, e, hne, rfl⟩ := forwardOption_some_inv hor
      exact ⟨e, hne, rfl, rfl⟩
    · obtain ⟨m, _, _, e, hc, rfl⟩ := reverseOption_some_inv hor
      rcases hc with hne | hname
      · exact ⟨e, hne, rfl, rfl⟩
      · exfalso
        apply hid
        show r.name ++ "_reverse" = "combine_like_terms_add_reverse"
        rw [hname]
        rfl
  · intro r hr m hname hm ha
    rw [mem_genLoadedOptions]
    exact ⟨r, hr, Or.inr (reverseOption_combine_emits hname hm ha)⟩

/-- Witness for the amended C4: at the target `2*a` and the concrete
`combine_like_terms_add` rule, the reverse option is in the emitted list —
its instantiated left template `Add(a, a)` is collapsed to `2*a` by the
evaluating rebuild, so the replacement is structurally identical to the
input and the option survives only through the force-show flag. -/
theorem C4_no_identical_replacement_except_combine_reverse_witness :
    { id := "combine_like_terms_add_reverse",
      label := combRule.label ++ " (reverse)",
      ruleName := "combine_like_terms_add",
      replacementContentMathML :=
        (combEngine.render (applyMapping combEngine.evalNode combRule.left_template
          combRule.wilds [("a", SymExpr.sym "a")])).1,
      replacementPresentationMathML :=
        (combEngine.render (applyMapping combEngine.evalNode combRule.left_template
          combRule.wilds [("a", SymExpr.sym "a")])).2 } ∈
      genLoadedOptions combEngine [] [combRule] combExpr :=
  (C4_no_identical_replacement_except_combine_reverse combEngine [] [combRule]
    combExpr).2 combRule (by simp) [("a", SymExpr.sym "a")] rfl rfl rfl

/-! ### The complete-the-square generator -/

theorem foldlMin_mem :
    ∀ (fs : List String) (acc : String),
      fs.foldl (fun a n => if n < a then n else a) acc = acc ∨
        fs.foldl (fun a n => if n < a then n else a) acc ∈ fs := by
  intro fs
  induction fs with
  | nil => intro acc; exact Or.inl rfl
  | cons x fs ih =>
    intro acc
    rcases ih (if x < acc then x else acc) with h | h
    · rw [List.foldl_cons, h]
      by_cases hx : x < acc
      · rw [if_pos hx]
        exact Or.inr (List.mem_cons_self x fs)
      · rw [if_neg hx]
        exact Or.inl rfl
    · rw [List.foldl_cons]
      exact Or.inr (List.mem_cons_of_mem x h)

theorem foldlMin_le :
    ∀ (fs : List String) (acc : String),
      fs.foldl (fun a n => if n < a then n else a) acc ≤ acc ∧
        ∀ y ∈ fs, fs.foldl (fun a n => if n < a then n else a) acc ≤ y := by
  intro fs
  induction fs with
  | nil => intro acc; exact ⟨le_refl _, by simp⟩
  | cons x fs ih =>
    intro acc
    obtain ⟨h1, h2⟩ := ih (if x < acc then x else acc)
    have hacc : (if x < acc then x else acc) ≤ acc := by
      by_cases hx : x < acc
      · rw [if_pos hx]; exact le_of_lt hx
      · rw [if_neg hx]
    have hx' : (if x < acc then x else acc) ≤ x := by
      by_cases hx : x < acc
      · rw [if_pos hx]
      · rw [if_neg hx]; exact le_of_not_lt hx
    refine ⟨le_trans (by simpa [List.foldl_cons] using h1) hacc, ?_⟩
    intro y hy
    rcases List.mem_cons.mp hy with rfl | hy
    · exact le_trans (by simpa [List.foldl_cons] using h1) hx'
    · simpa [List.foldl_cons] using h2 y hy

theorem sortedHead_mem (f : String) (fs : List String) :
    sortedHead (f :: fs) ∈ f :: fs := by
  have e : sortedHead (f :: fs) =
      fs.foldl (fun acc n => if n < acc then n else acc) f := rfl
  rw [e]
  rcases foldlMin_mem fs f with h | h
  · rw [h]
    exact List.mem_cons_self f fs
  · exact List.mem_cons_of_mem f h

theorem sortedHead_le (f : String) (fs : List String) :
    ∀ y ∈ f :: fs, sortedHead (f :: fs) ≤ y := by
  intro y hy
  obtain ⟨h1, h2⟩ := foldlMin_le fs f
  rcases List.mem_cons.mp hy with rfl | hy
  · exact h1
  · exact h2 y hy

/-- C7: for a target whose polynomial view in the chosen variable has degree
2 with coefficients `a, b, c`, the complete-the-square generator emits the
simplified `a*(x + b/(2a))^2 - b^2/(4a) + c` as a `complete_square` option
exactly when the simplified result is not structurally identical to the
input; the variable chosen is the free variable literally named `x` when
present, otherwise the lexicographically (alphabetically) first free
variable. -/
theorem C7_complete_square_generator (eng : Engine) (expr : SymExpr)
    (a b c : SymExpr) (f : String) (fs : List String)
    (hfree : expr.freeSyms = f :: fs)
    (hpoly : eng.polyCoeffs expr
        (if expr.freeSyms.contains "x" then "x" else sortedHead expr.freeSyms) =
      some (2, [a, b, c])) :
    (completeSquareOptions eng expr =
      if eng.simplify (csFormula a b c
          (if expr.freeSyms.contains "x" then "x" else sortedHead expr.freeSyms)) ==
          expr then []
      else
        [{ id := "complete_square_auto",
           label := "Complete the square: ax^2+bx+c → a(x + b/(2a))^2 - b^2/(4a) + c",
           ruleName := "complete_square",
           replacementContentMathML := (eng.render (eng.simplify (csFormula a b c
             (if expr.freeSyms.contains "x" then "x"
              else sortedHead expr.freeSyms)))).1,
           replacementPresentationMathML := (eng.render (eng.simplify (csFormula a b c
             (if expr.freeSyms.contains "x" then "x"
              else sortedHead expr.freeSyms)))).2 }]) ∧
    ("x" ∈ expr.freeSyms →
      (if expr.freeSyms.contains "x" then "x" else sortedHead expr.freeSyms) = "x") ∧
    ("x" ∉ expr.freeSyms →
      (if expr.freeSyms.contains "x" then "x" else sortedHead expr.freeSyms) ∈
        expr.freeSyms ∧
      ∀ y ∈ expr.freeSyms,
        (if expr.freeSyms.contains "x" then "x" else sortedHead expr.freeSyms) ≤ y) := by
  refine ⟨?_, ?_, ?_⟩
  · have hne : expr.freeSyms.isEmpty = false := by rw [hfree]; rfl
    simp only [completeSquareOptions, hne, Bool.false_eq_true, if_false, hpoly]
    by_cases hs : (eng.simplify (csFormula a b c
        (if expr.freeSyms.contains "x" then "x" else sortedHead expr.freeSyms)) ==
        expr) = true <;>
      simp [hs]
  · intro hx
    have hcontains : expr.freeSyms.contains "x" = true := by
      simpa [List.contains] using hx
    rw [if_pos hcontains]
  · intro hx
    have hcontains : ¬ (expr.freeSyms.contains "x" = true) := by
      simpa [List.contains] using hx
    rw [if_neg hcontains]
    constructor
    · rw [hfree]
      exact sortedHead_mem f fs
    · rw [hfree]
      exact sortedHead_le f fs

/-- Witness for C7 at `x^2 + 6*x + 5` with the `csEngine` polynomial view:
the chosen variable is `x` and the generator emits the simplified completed
square `(x + 3)^2 - 4`. -/
theorem C7_complete_square_generator_witness :
    completeSquareOptions csEngine csExpr =
      [{ id := "complete_square_auto",
         label := "Complete the square: ax^2+bx+c → a(x + b/(2a))^2 - b^2/(4a) + c",
         ruleName := "complete_square",
         replacementContentMathML := "C",
         replacementPresentationMathML := "P" }] ∧
    (if csExpr.freeSyms.contains "x" then "x" else sortedHead csExpr.freeSyms) = "x" := by
  have h := C7_complete_square_generator csEngine csExpr
    (.intLit 1) (.intLit 6) (.intLit 5) "x" ["x"] rfl rfl
  refine ⟨?_, h.2.1 (by decide)⟩
  rw [h.1]
  rfl

/-! ### Totality of the AST-to-algebra conversion -/

theorem astToSympy_call (f : String) (a : AST) :
    astToSympy (.call f a) =
      (if pyLower f = "sin" then .fn "sin" (astToSympy a)
       else if pyLower f = "cos" then .fn "cos" (astToSympy a)
       else if pyLower f = "tan" then .fn "tan" (astToSympy a)
       else if pyLower f = "sec" then .fn "sec" (astToSympy a)
       else if pyLower f = "csc" then .fn "csc" (astToSympy a)
       else if pyLower f = "cot" then .fn "cot" (astToSympy a)
       else if pyLower f = "log" then .fn "log" (astToSympy a)
       else if pyLower f = "exp" then .fn "exp" (astToSympy a)
       else if pyLower f = "abs" ∨ pyLower f = "absolutevalue" then
         .fn "abs" (astToSympy a)
       else if pyLower f = "conjugate" ∨ pyLower f = "conj" then
         .fn "conjugate" (astToSympy a)
       else if pyLower f = "times" then
         match a with
         | .add ts =>
           if (astToSympyList ts).isEmpty then .intLit 1 else .mul (astToSympyList ts)
         | _ => astToSympy a
       else .undef (pyLower f) (astToSympy a)) := by
  cases a <;> rfl

/-- C8: `_ast_to_sympy` is total (it is a Lean function, and every branch of
the source has a non-raising fallback): `i`/`I` map to the imaginary unit
and every other identifier to a free variable; a numeric literal is parsed
as an integer, else a rational, else falls back to an opaque identifier;
and a call whose lowercased name is outside the recognized vocabulary
becomes an uninterpreted function application. -/
theorem C8_ast_to_sympy_total_conversion :
    (astToSympy (.ident "i") = .imagUnit ∧ astToSympy (.ident "I") = .imagUnit) ∧
    (∀ n : String, n ≠ "i" → n ≠ "I" → astToSympy (.ident n) = .sym n) ∧
    (∀ (v : String) (k : Int), intPy v = some k →
      astToSympy (.number v) = .intLit k) ∧
    (∀ (v : String) (p q : Int), intPy v = none → ratPy v = some (p, q) →
      astToSympy (.number v) = .ratLit p q) ∧
    (∀ v : String, intPy v = none → ratPy v = none →
      astToSympy (.number v) = .sym v) ∧
    (∀ (fname : String) (arg : AST),
      pyLower fname ∉ (["sin", "cos", "tan", "sec", "csc", "cot", "log", "exp",
        "abs", "absolutevalue", "conjugate", "conj", "times"] : List String) →
      astToSympy (.call fname arg) = .undef (pyLower fname) (astToSympy arg)) := by
  refine ⟨⟨rfl, rfl⟩, ?_, ?_, ?_, ?_, ?_⟩
  · intro n h1 h2
    simp [astToSympy, h1, h2]
  · intro v k h
    simp [astToSympy, h]
  · intro v p q h1 h2
    simp [astToSympy, h1, h2]
  · intro v h1 h2
    simp [astToSympy, h1, h2]
  · intro fname arg hnot
    have n1 : ¬ pyLower fname = "sin" := fun h => hnot (by rw [h]; simp)
    have n2 : ¬ pyLower fname = "cos" := fun h => hnot (by rw [h]; simp)
    have n3 : ¬ pyLower fname = "tan" := fun h => hnot (by rw [h]; simp)
    have n4 : ¬ pyLower fname = "sec" := fun h => hnot (by rw [h]; simp)
    have n5 : ¬ pyLower fname = "csc" := fun h => hnot (by rw [h]; simp)
    have n6 : ¬ pyLower fname = "cot" := fun h => hnot (by rw [h]; simp)
    have n7 : ¬ pyLower fname = "log" := fun h => hnot (by rw [h]; simp)
    have n8 : ¬ pyLower fname = "exp" := fun h => hnot (by rw [h]; simp)
    have n9 : ¬ pyLower fname = "abs" := fun h => hnot (by rw [h]; simp)
    have n10 : ¬ pyLower fname = "absolutevalue" := fun h => hnot (by rw [h]; simp)
    have n11 : ¬ pyLower fname = "conjugate" := fun h => hnot (by rw [h]; simp)
    have n12 : ¬ pyLower fname = "conj" := fun h => hnot (by rw [h]; simp)
    have n13 : ¬ pyLower fname = "times" := fun h => hnot (by rw [h]; simp)
    rw [astToSympy_call, if_neg n1, if_neg n2, if_neg n3, if_neg n4, if_neg n5,
      if_neg n6, if_neg n7, if_neg n8,
      if_neg (show ¬ (pyLower fname = "abs" ∨ pyLower fname = "absolutevalue") from
        fun hc => hc.elim n9 n10),
      if_neg (show ¬ (pyLower fname = "conjugate" ∨ pyLower fname = "conj") from
        fun hc => hc.elim n11 n12),
      if_neg n13]

/-- Witness for C8 at concrete identifiers, numerals and an unrecognized
function name. -/
theorem C8_ast_to_sympy_total_conversion_witness :
    astToSympy (.ident "q") = .sym "q" ∧
    astToSympy (.number "5") = .intLit 5 ∧
    astToSympy (.number "3/4") = .ratLit 3 4 ∧
    astToSympy (.number "zzz") = .sym "zzz" ∧
    astToSympy (.call "erf" (.ident "u")) = .undef (pyLower "erf") (astToSympy (.ident "u")) :=
  ⟨C8_ast_to_sympy_total_conversion.2.1 "q" (by decide) (by decide),
    C8_ast_to_sympy_total_conversion.2.2.1 "5" 5 rfl,
    C8_ast_to_sympy_total_conversion.2.2.2.1 "3/4" 3 4 rfl rfl,
    C8_ast_to_sympy_total_conversion.2.2.2.2.1 "zzz" rfl rfl,
    C8_ast_to_sympy_total_conversion.2.2.2.2.2 "erf" (.ident "u") (by decide)⟩

/-- C10: a `call` node named exactly `times` whose argument is not the
parser's `add`-shaped product encoding converts to the conversion of its
argument alone — the function application is dropped, so a unary function
literally named `times` is indistinguishable from its own argument after
conversion. -/
theorem C10_times_call_collapses_to_argument :
    ∀ arg : AST, arg.isAdd = false →
      astToSympy (.call "times" arg) = astToSympy arg := by
  intro arg h
  cases arg with
  | ident n => rfl
  | number v => rfl
  | power b e => rfl
  | add ts => simp [AST.isAdd] at h
  | call f a => rfl
  | diff v a => rfl

/-- Witness for C10: `times(y)` converts to what `y` alone converts to. -/
theorem C10_times_call_collapses_to_argument_witness :
    astToSympy (.call "times" (.ident "y")) = astToSympy (.ident "y") :=
  C10_times_call_collapses_to_argument (.ident "y") rfl

end EquationAce
